import Mathlib

/-!
# SolveSpace `dsc.h`: containers and colour packing

A shallow embedding of the templated containers `List<T>` and `IdList<T,H>` and of
`RgbaColor` from `src/dsc.h`, followed by theorems about them.

Modelling conventions
* A buffer `T *elem` is a total map `Nat → T` from slot index to slot value; a pointer
  into the buffer is the index of the slot it addresses.  Only the slots `0 .. n-1` are
  live, and `toList` reads them out as the element sequence.
* `int n`, `int elemsAllocated` and loop counters that the code keeps non-negative are
  natural numbers; the binary search of `IndexOf`, whose upper bound reaches `-1`, uses
  integers.  Index arithmetic is exact: signed overflow, which is undefined in C++ and
  needs a container of `2^30` elements or more (`first + last`, `(elemsAllocated + 32) * 2`),
  is outside the model.
* `uint32_t` handle values are natural numbers and the one arithmetic operation on them,
  `MaximumId() + 1`, is reduced modulo `2^32`.
* `uint8_t` colour channels are natural numbers below 256, packed values are reduced
  modulo `2^32`.
* `elem = NULL` is the buffer whose every slot holds the default element, as in
  `IdList.empty`; two containers are two values, so their buffers never overlap.
* `std::move` is a copy: every moved-from slot is overwritten or dropped afterwards.
* `ssassert` aborts the operation: operations that can reach one return an `Outcome`.
* `for` loops with a known trip count are folds (`forLoop`); `while` loops run on a
  budget of iterations fixed by the caller from `n`, and the theorems show the budget
  is never exhausted.
-/

namespace Dsc

/-! ## Control flow -/

/-- The three `ssassert` sites of the containers. -/
inductive Oops where
  /-- The assertion of `IdList::Add`, message "Handle isn't unique". -/
  | handleNotUnique
  /-- The assertion of `IdList::FindById`, message "Cannot find handle". -/
  | cannotFindHandle
  /-- The assertion of `List::RemoveLast`,
  message "Removing more elements than the list contains". -/
  | removingTooMany
deriving DecidableEq, Repr

/-- How a call ends: it returns a value, an `ssassert` trips, or the iteration budget
of a `while` loop is used up. -/
inductive Outcome (α : Type) where
  | ret : α → Outcome α
  | oops : Oops → Outcome α
  | outOfFuel : Outcome α
deriving DecidableEq, Repr

/-- Observation of a returned value. -/
def Outcome.map {α β : Type} (f : α → β) : Outcome α → Outcome β
  | .ret a => .ret (f a)
  | .oops o => .oops o
  | .outOfFuel => .outOfFuel

/-- The returned value, or `d` when the call did not return. -/
def Outcome.getD {α : Type} (o : Outcome α) (d : α) : α :=
  match o with
  | .ret a => a
  | _ => d

/-- The loop `for(i = lo; i < lo + cnt; i++) s = body(i, s);`. -/
def forLoop {σ : Type} (body : Nat → σ → σ) : Nat → Nat → σ → σ
  | _, 0, s => s
  | lo, cnt + 1, s => forLoop body (lo + 1) cnt (body lo s)

/-- The call `std::move_backward(elem + first, elem + last, elem + d_last)`: the slots
`first .. last-1` are assigned, last one first, to the slots ending just before `d_last`. -/
def move_backward {T : Type} (first last d_last : Nat) (elem : Nat → T) : Nat → T :=
  forLoop (fun k m => Function.update m (d_last - 1 - k) (m (last - 1 - k))) 0 (last - first) elem

/-- The call `swap(elem[i], elem[j])`. -/
def swap {T : Type} (elem : Nat → T) (i j : Nat) : Nat → T :=
  Function.update (Function.update elem i (elem j)) j (elem i)

/-! ## `List<T>` -/

/-- An element type with the scratch field `tag` that `ClearTags` and `RemoveTagged` use. -/
structure Tagged (α : Type) where
  tag : Int
  val : α
deriving DecidableEq, Repr

instance {α : Type} [Inhabited α] : Inhabited (Tagged α) := ⟨⟨0, default⟩⟩

/-- The class `List<T>`: buffer, number of live elements, capacity. -/
structure DscList (T : Type) where
  elem : Nat → T
  n : Nat
  elemsAllocated : Nat

namespace DscList

variable {T : Type}

/-- The live elements `elem[0], ..., elem[n-1]`. -/
def toList (l : DscList T) : List T := (List.range l.n).map l.elem

/-- A list holding the given sequence in a buffer of capacity `cap`. -/
def ofList [Inhabited T] (xs : List T) (cap : Nat) : DscList T :=
  { elem := fun i => xs.getD i default, n := xs.length, elemsAllocated := cap }

/-- `List::AllocForOneMore`: when full, a buffer of `(elemsAllocated + 32) * 2` slots is
allocated and the live elements are moved into it slot by slot. -/
def AllocForOneMore [Inhabited T] (l : DscList T) : DscList T :=
  if l.n ≥ l.elemsAllocated then
    let newElem : Nat → T := fun _ => default
    { elem := forLoop (fun i m => Function.update m i (l.elem i)) 0 l.n newElem
      n := l.n
      elemsAllocated := (l.elemsAllocated + 32) * 2 }
  else l

/-- `List::AddToBeginning`. -/
def AddToBeginning [Inhabited T] (l : DscList T) (t : T) : DscList T :=
  let l1 := l.AllocForOneMore
  let e1 := Function.update l1.elem l1.n default
  let e2 := move_backward 0 1 (l1.n + 1) e1
  let e3 := Function.update e2 0 t
  { elem := e3, n := l1.n + 1, elemsAllocated := l1.elemsAllocated }

/-- One iteration of the compaction loop of `RemoveTagged`, on the pair (buffer, `dest`). -/
def removeTaggedBody {α : Type} (src : Nat) (p : (Nat → Tagged α) × Nat) :
    (Nat → Tagged α) × Nat :=
  if (p.1 src).tag ≠ 0 then p
  else (if src ≠ p.2 then Function.update p.1 p.2 (p.1 src) else p.1, p.2 + 1)

/-- `List::RemoveTagged`: the compaction loop, then `n = dest`; the destructor loop over
the dropped suffix changes no live slot. -/
def RemoveTagged {α : Type} (l : DscList (Tagged α)) : DscList (Tagged α) :=
  let p := forLoop removeTaggedBody 0 l.n (l.elem, 0)
  { elem := p.1, n := p.2, elemsAllocated := l.elemsAllocated }

/-- `List::Reverse`. -/
def Reverse (l : DscList T) : DscList T :=
  { elem := forLoop (fun i m => swap m i ((l.n - 1) - i)) 0 (l.n / 2) l.elem
    n := l.n
    elemsAllocated := l.elemsAllocated }

/-- `List::Add`: room is made, the item is copy-constructed into slot `n`, then `n++`. -/
def Add [Inhabited T] (l : DscList T) (t : T) : DscList T :=
  let l1 := l.AllocForOneMore
  { elem := Function.update l1.elem l1.n t, n := l1.n + 1, elemsAllocated := l1.elemsAllocated }

/-- `List::First`: the pointer `&elem[0]` is `some 0`, `NULL` is `none`. -/
def First (l : DscList T) : Option Nat :=
  if l.n = 0 then none else some 0

/-- `List::NextAfter`: the pointer difference `prev - elem` is the index behind `prev`. -/
def NextAfter (l : DscList T) (prev : Option Nat) : Option Nat :=
  match prev with
  | none => none
  | some i => if (i : Int) = (l.n : Int) - 1 then none else some (i + 1)

/-- `List::ClearTags`. -/
def ClearTags {α : Type} (l : DscList (Tagged α)) : DscList (Tagged α) :=
  { elem := forLoop (fun i m => Function.update m i { m i with tag := 0 }) 0 l.n l.elem
    n := l.n
    elemsAllocated := l.elemsAllocated }

/-- `List::Clear`: the live elements are destroyed, the buffer is freed, `elem = NULL` and
`n = elemsAllocated = 0`. -/
def Clear [Inhabited T] (_l : DscList T) : DscList T :=
  { elem := fun _ => default, n := 0, elemsAllocated := 0 }

/-- `List::RemoveLast`: after the assertion `n >= cnt`, the destructor loop over the
slots `n - cnt .. n-1` changes no slot value, and `n -= cnt`. -/
def RemoveLast (l : DscList T) (cnt : Int) : Outcome (DscList T) :=
  if (l.n : Int) ≥ cnt then
    .ret { elem := l.elem, n := ((l.n : Int) - cnt).toNat, elemsAllocated := l.elemsAllocated }
  else .oops .removingTooMany

/-- The capacity invariant `0 ≤ n ≤ elemsAllocated` (`0 ≤ n` holds by the type of `n`). -/
def WithinCapacity (l : DscList T) : Prop := l.n ≤ l.elemsAllocated

instance (l : DscList T) : Decidable l.WithinCapacity := by
  unfold WithinCapacity; infer_instance

/-- Following a cursor with `NextAfter` until it is `NULL`, recording the indices it
addresses, on a budget of steps. -/
def walk (l : DscList T) : Nat → Option Nat → Outcome (List Nat)
  | _, none => .ret []
  | 0, some _ => .outOfFuel
  | fuel + 1, some i => (walk l fuel (l.NextAfter (some i))).map (fun is => i :: is)

/-- The traversal `for(p = First(); p; p = NextAfter(p))`. -/
def traverse (l : DscList T) : Outcome (List Nat) :=
  walk l l.n l.First

end DscList

/-! ## `IdList<T,H>` -/

/-- The handle type `H`: a wrapper around `uint32_t v`. -/
structure Handle where
  v : Nat
deriving DecidableEq, Repr

/-- The exclusive upper bound of `uint32_t`. -/
def UINT32_MOD : Nat := 2 ^ 32

/-- An element type `T` of an `IdList`: handle `h`, scratch field `tag`, and the rest. -/
structure Item (α : Type) where
  h : Handle
  tag : Int
  val : α
deriving DecidableEq, Repr

instance {α : Type} [Inhabited α] : Inhabited (Item α) := ⟨⟨⟨0⟩, 0, default⟩⟩

/-- The class `IdList<T,H>`. -/
structure IdList (α : Type) where
  elem : Nat → Item α
  n : Nat
  elemsAllocated : Nat

namespace IdList

variable {α : Type}

/-- The live elements `elem[0], ..., elem[n-1]`. -/
def toList (l : IdList α) : List (Item α) := (List.range l.n).map l.elem

/-- The handle values of the live elements, in storage order. -/
def handles (l : IdList α) : List Nat := l.toList.map (fun e => e.h.v)

/-- The empty store: no buffer, `n = 0`, `elemsAllocated = 0`. -/
def empty [Inhabited α] : IdList α :=
  { elem := fun _ => default, n := 0, elemsAllocated := 0 }

/-- A store holding the given sequence in a buffer of capacity `cap`. -/
def ofList [Inhabited α] (xs : List (Item α)) (cap : Nat) : IdList α :=
  { elem := fun i => xs.getD i default, n := xs.length, elemsAllocated := cap }

/-- The invariant: `elem[0..n)` strictly increasing by `h.v`. -/
def Sorted (l : IdList α) : Prop :=
  ∀ j, j < l.n → ∀ i, i < j → (l.elem i).h.v < (l.elem j).h.v

instance (l : IdList α) : Decidable l.Sorted := by
  unfold Sorted; infer_instance

/-- Some live element carries the handle value `v`. -/
def Mem (l : IdList α) (v : Nat) : Prop := ∃ i, i < l.n ∧ (l.elem i).h.v = v

instance (l : IdList α) (v : Nat) : Decidable (l.Mem v) := by
  unfold Mem; infer_instance

/-- `IdList::MaximumId`. -/
def MaximumId (l : IdList α) : Nat :=
  forLoop (fun i id => max id (l.elem i).h.v) 0 l.n 0

/-- The growth step at the head of `IdList::Add`. -/
def grow [Inhabited α] (l : IdList α) : IdList α :=
  if l.n ≥ l.elemsAllocated then
    let newElem : Nat → Item α := fun _ => default
    { elem := forLoop (fun i m => Function.update m i (l.elem i)) 0 l.n newElem
      n := l.n
      elemsAllocated := (l.elemsAllocated + 32) * 2 }
  else l

/-- The loop `while(first != last)` of `IdList::Add`, searching the insertion point for
the handle value `tv`. -/
def AddLoop (elem : Nat → Item α) (tv : Nat) : Nat → Nat → Nat → Outcome Nat
  | 0, _, _ => .outOfFuel
  | fuel + 1, first, last =>
    if first ≠ last then
      let mid := (first + last) / 2
      let hm := (elem mid).h
      if hm.v = tv then .oops .handleNotUnique
      else if hm.v > tv then AddLoop elem tv fuel first mid
      else if hm.v < tv then AddLoop elem tv fuel (mid + 1) last
      else AddLoop elem tv fuel first last
    else .ret first

/-- `IdList::Add`. -/
def Add [Inhabited α] (l : IdList α) (t : Item α) : Outcome (IdList α) :=
  let l1 := l.grow
  match AddLoop l1.elem t.h.v (l1.n + 1) 0 l1.n with
  | .ret i =>
    let e1 := Function.update l1.elem l1.n default
    let e2 := move_backward i l1.n (l1.n + 1) e1
    let e3 := Function.update e2 i t
    .ret { elem := e3, n := l1.n + 1, elemsAllocated := l1.elemsAllocated }
  | .oops o => .oops o
  | .outOfFuel => .outOfFuel

/-- What `IdList::AddAndAssignId` leaves behind: the store, the caller's item (its handle
has been overwritten), and the returned handle. -/
structure Assigned (α : Type) where
  store : IdList α
  item : Item α
  handle : Handle

/-- `IdList::AddAndAssignId`. -/
def AddAndAssignId [Inhabited α] (l : IdList α) (t : Item α) : Outcome (Assigned α) :=
  let t1 : Item α := { t with h := ⟨(l.MaximumId + 1) % UINT32_MOD⟩ }
  match l.Add t1 with
  | .ret l1 => .ret { store := l1, item := t1, handle := t1.h }
  | .oops o => .oops o
  | .outOfFuel => .outOfFuel

/-- The loop `while(first <= last)` of `IdList::IndexOf`. -/
def IndexOfLoop (elem : Nat → Item α) (hv : Nat) : Nat → Int → Int → Outcome Int
  | 0, _, _ => .outOfFuel
  | fuel + 1, first, last =>
    if first ≤ last then
      let mid := Int.tdiv (first + last) 2
      let hm := (elem mid.toNat).h
      if hm.v > hv then IndexOfLoop elem hv fuel first (mid - 1)
      else if hm.v < hv then IndexOfLoop elem hv fuel (mid + 1) last
      else .ret mid
    else .ret (-1)

/-- `IdList::IndexOf`. -/
def IndexOf (l : IdList α) (h : Handle) : Outcome Int :=
  IndexOfLoop l.elem h.v (l.n + 1) 0 ((l.n : Int) - 1)

/-- The loop of `IdList::FindByIdNoOops`; the pointer `&elem[mid]` is `some mid`,
`NULL` is `none`. -/
def FindByIdNoOopsLoop (elem : Nat → Item α) (hv : Nat) :
    Nat → Int → Int → Outcome (Option Nat)
  | 0, _, _ => .outOfFuel
  | fuel + 1, first, last =>
    if first ≤ last then
      let mid := Int.tdiv (first + last) 2
      let hm := (elem mid.toNat).h
      if hm.v > hv then FindByIdNoOopsLoop elem hv fuel first (mid - 1)
      else if hm.v < hv then FindByIdNoOopsLoop elem hv fuel (mid + 1) last
      else .ret (some mid.toNat)
    else .ret none

/-- `IdList::FindByIdNoOops`. -/
def FindByIdNoOops (l : IdList α) (h : Handle) : Outcome (Option Nat) :=
  FindByIdNoOopsLoop l.elem h.v (l.n + 1) 0 ((l.n : Int) - 1)

/-- `IdList::FindById`: the returned pointer is never `NULL`, so it is an index. -/
def FindById (l : IdList α) (h : Handle) : Outcome Nat :=
  match l.FindByIdNoOops h with
  | .ret (some i) => .ret i
  | .ret none => .oops .cannotFindHandle
  | .oops o => .oops o
  | .outOfFuel => .outOfFuel

/-- `IdList::ClearTags`. -/
def ClearTags (l : IdList α) : IdList α :=
  { elem := forLoop (fun i m => Function.update m i { m i with tag := 0 }) 0 l.n l.elem
    n := l.n
    elemsAllocated := l.elemsAllocated }

/-- `IdList::Tag`. -/
def Tag (l : IdList α) (h : Handle) (tag : Int) : IdList α :=
  { elem := forLoop (fun i m =>
      if (m i).h.v = h.v then Function.update m i { m i with tag := tag } else m) 0 l.n l.elem
    n := l.n
    elemsAllocated := l.elemsAllocated }

/-- One iteration of the compaction loop of `IdList::RemoveTagged`. -/
def removeTaggedBody (src : Nat) (p : (Nat → Item α) × Nat) : (Nat → Item α) × Nat :=
  if (p.1 src).tag ≠ 0 then p
  else (if src ≠ p.2 then Function.update p.1 p.2 (p.1 src) else p.1, p.2 + 1)

/-- `IdList::RemoveTagged`. -/
def RemoveTagged (l : IdList α) : IdList α :=
  let p := forLoop removeTaggedBody 0 l.n (l.elem, 0)
  { elem := p.1, n := p.2, elemsAllocated := l.elemsAllocated }

/-- `IdList::RemoveById`. -/
def RemoveById (l : IdList α) (h : Handle) : Outcome (IdList α) :=
  let l1 := l.ClearTags
  match l1.FindById h with
  | .ret i =>
    let l2 : IdList α :=
      { elem := Function.update l1.elem i { l1.elem i with tag := 1 }
        n := l1.n
        elemsAllocated := l1.elemsAllocated }
    .ret l2.RemoveTagged
  | .oops o => .oops o
  | .outOfFuel => .outOfFuel

/-- `IdList::Clear`: every live element is cleared and destroyed, then
`elemsAllocated = n = 0`, the buffer is freed and `elem = NULL`. -/
def Clear [Inhabited α] (_l : IdList α) : IdList α :=
  { elem := fun _ => default, n := 0, elemsAllocated := 0 }

/-- The two stores a transfer involves, after the call: `self` is `*this`, `dest` is `*l`. -/
structure Transfer (α : Type) where
  self : IdList α
  dest : IdList α

/-- `IdList::MoveSelfInto`. -/
def MoveSelfInto [Inhabited α] (self l : IdList α) : Transfer α :=
  let _l1 := l.Clear
  let l2 : IdList α := self
  { self := { elem := fun _ => default, n := 0, elemsAllocated := 0 }, dest := l2 }

/-- `IdList::DeepCopyInto`: the fresh buffer receives a copy of every live element. -/
def DeepCopyInto [Inhabited α] (self l : IdList α) : Transfer α :=
  let l1 := l.Clear
  let fresh : Nat → Item α := fun _ => default
  let l2 : IdList α :=
    { l1 with elem := forLoop (fun i m => Function.update m i (self.elem i)) 0 self.n fresh }
  let l3 : IdList α := { l2 with elemsAllocated := self.elemsAllocated }
  let l4 : IdList α := { l3 with n := self.n }
  { self := self, dest := l4 }

end IdList

/-! ## `RgbaColor` -/

/-- The class `RgbaColor`: four `uint8_t` channels. -/
structure RgbaColor where
  red : Nat
  green : Nat
  blue : Nat
  alpha : Nat
deriving DecidableEq, Repr

namespace RgbaColor

/-- Every channel is a byte. -/
def Valid (c : RgbaColor) : Prop :=
  c.red < 256 ∧ c.green < 256 ∧ c.blue < 256 ∧ c.alpha < 256

instance (c : RgbaColor) : Decidable c.Valid := by
  unfold Valid; infer_instance

/-- `RgbaColor::Equals`. -/
def Equals (self c : RgbaColor) : Bool :=
  c.red == self.red && c.green == self.green && c.blue == self.blue && c.alpha == self.alpha

/-- `RgbaColor::ToPackedIntBGRA`. -/
def ToPackedIntBGRA (c : RgbaColor) : Nat :=
  c.blue ||| (c.green <<< 8) % 2 ^ 32 ||| (c.red <<< 16) % 2 ^ 32
    ||| ((255 - c.alpha) <<< 24) % 2 ^ 32

/-- `RgbaColor::ToPackedInt`. -/
def ToPackedInt (c : RgbaColor) : Nat :=
  c.red ||| (c.green <<< 8) % 2 ^ 32 ||| (c.blue <<< 16) % 2 ^ 32
    ||| ((255 - c.alpha) <<< 24) % 2 ^ 32

/-- `RgbaColor::From`: each `int` argument is cast to `uint8_t`. -/
def From (r g b : Int) (a : Int := 255) : RgbaColor :=
  { red := (r % 256).toNat, green := (g % 256).toNat,
    blue := (b % 256).toNat, alpha := (a % 256).toNat }

/-- `RgbaColor::FromPackedInt`. -/
def FromPackedInt (rgba : Nat) : RgbaColor :=
  From ((rgba &&& 0xff : Nat) : Int) (((rgba >>> 8) &&& 0xff : Nat) : Int)
    (((rgba >>> 16) &&& 0xff : Nat) : Int) ((255 - ((rgba >>> 24) &&& 0xff) : Nat) : Int)

/-- `RgbaColor::FromPackedIntBGRA`. -/
def FromPackedIntBGRA (bgra : Nat) : RgbaColor :=
  From (((bgra >>> 16) &&& 0xff : Nat) : Int) (((bgra >>> 8) &&& 0xff : Nat) : Int)
    ((bgra &&& 0xff : Nat) : Int) ((255 - ((bgra >>> 24) &&& 0xff) : Nat) : Int)

end RgbaColor

/-! ## Client runs -/

namespace IdList

variable {α : Type}

/-- Inserting the given items one after another with `Add`, stopping at the first call
that does not return. -/
def AddAll [Inhabited α] : List (Item α) → IdList α → Outcome (IdList α)
  | [], l => .ret l
  | t :: ts, l =>
    match l.Add t with
    | .ret l1 => AddAll ts l1
    | .oops o => .oops o
    | .outOfFuel => .outOfFuel

/-- One call made by a client of a store. -/
inductive Step (α : Type) where
  | addAndAssignId (t : Item α)
  | removeById (h : Handle)
  | removeTagged

/-- A store together with the handles `AddAndAssignId` has returned so far, latest first. -/
structure RunState (α : Type) where
  store : IdList α
  returned : List Handle

/-- The start of a run: the empty store, nothing returned yet. -/
def RunState.init [Inhabited α] : RunState α := { store := empty, returned := [] }

/-- Performing one call. -/
def step [Inhabited α] (st : RunState α) : Step α → Outcome (RunState α)
  | .addAndAssignId t =>
    match st.store.AddAndAssignId t with
    | .ret r => .ret { store := r.store, returned := r.handle :: st.returned }
    | .oops o => .oops o
    | .outOfFuel => .outOfFuel
  | .removeById h =>
    match st.store.RemoveById h with
    | .ret l => .ret { store := l, returned := st.returned }
    | .oops o => .oops o
    | .outOfFuel => .outOfFuel
  | .removeTagged => .ret { store := st.store.RemoveTagged, returned := st.returned }

/-- Performing a sequence of calls, stopping at the first one that does not return. -/
def run [Inhabited α] : List (Step α) → RunState α → Outcome (RunState α)
  | [], st => .ret st
  | s :: ss, st =>
    match step st s with
    | .ret st1 => run ss st1
    | .oops o => .oops o
    | .outOfFuel => .outOfFuel

end IdList


/-! ## Sample inputs -/

/-- The store holding handles 1, 3, 5 (the middle element tagged) at capacity 3. -/
def store135 : IdList Unit :=
  IdList.ofList [⟨⟨1⟩, 0, ()⟩, ⟨⟨3⟩, 1, ()⟩, ⟨⟨5⟩, 0, ()⟩] 3

/-- The store holding the single handle `0xFFFFFFFF`. -/
def storeMax : IdList Unit :=
  IdList.ofList [⟨⟨4294967295⟩, 0, ()⟩] 1

/-- An item offered to `AddAndAssignId`; its handle is overwritten by the call. -/
def item7 : Item Unit := ⟨⟨7⟩, 0, ()⟩

/-- A run that adds an item, removes it by its handle, and adds an item again. -/
def runAddRemoveAdd : List (IdList.Step Unit) :=
  [.addAndAssignId item7, .removeById ⟨1⟩, .addAndAssignId item7]

/-- A run that adds two items and removes the first. -/
def runAddAddRemove : List (IdList.Step Unit) :=
  [.addAndAssignId item7, .addAndAssignId item7, .removeById ⟨1⟩]

/-- The empty list: `n = 0`, `elemsAllocated = 0`. -/
def listEmpty : DscList Nat := DscList.ofList [] 0

/-- The list `[10, 20, 30]` at capacity 3, so that it is full. -/
def listFull3 : DscList Nat := DscList.ofList [10, 20, 30] 3

/-- The store holding handles 2, 4 at capacity 8. -/
def store24 : IdList Unit :=
  IdList.ofList [⟨⟨2⟩, 5, ()⟩, ⟨⟨4⟩, 0, ()⟩] 8

/-! ## Loops -/

theorem forLoop_zero {σ : Type} (body : Nat → σ → σ) (lo : Nat) (s : σ) :
    forLoop body lo 0 s = s := rfl

theorem forLoop_succ {σ : Type} (body : Nat → σ → σ) (lo cnt : Nat) (s : σ) :
    forLoop body lo (cnt + 1) s = forLoop body (lo + 1) cnt (body lo s) := rfl

/-- Unrolling the last iteration of a loop. -/
theorem forLoop_succ_last {σ : Type} (body : Nat → σ → σ) (lo cnt : Nat) (s : σ) :
    forLoop body lo (cnt + 1) s = body (lo + cnt) (forLoop body lo cnt s) := by
  induction cnt generalizing lo s with
  | zero => rfl
  | succ k ih =>
    rw [forLoop_succ, ih (lo + 1) (body lo s), forLoop_succ]
    congr 1
    omega

/-- The invariant rule for `forLoop`: `P i s` relates the counter to the loop state. -/
theorem forLoop_inv {σ : Type} (body : Nat → σ → σ) (P : Nat → σ → Prop) (lo cnt : Nat) (s : σ)
    (h0 : P lo s)
    (hstep : ∀ i s, lo ≤ i → i < lo + cnt → P i s → P (i + 1) (body i s)) :
    P (lo + cnt) (forLoop body lo cnt s) := by
  induction cnt with
  | zero => simpa using h0
  | succ k ih =>
    rw [forLoop_succ_last]
    have hk : P (lo + k) (forLoop body lo k s) :=
      ih (fun i s hi hlt hp => hstep i s hi (by omega) hp)
    exact hstep (lo + k) _ (by omega) (by omega) hk

/-- The effect of `std::move_backward(elem + i, elem + n, elem + n + 1)`: the slots
`i .. n-1` move up by one. -/
theorem move_backward_shift {T : Type} (i n : Nat) (hin : i ≤ n) (elem : Nat → T) (x : Nat) :
    move_backward i n (n + 1) elem x = if i < x ∧ x ≤ n then elem (x - 1) else elem x := by
  have key : ∀ x, forLoop (fun k m => Function.update m (n + 1 - 1 - k) (m (n - 1 - k))) 0
      (n - i) elem x = if n - (0 + (n - i)) < x ∧ x ≤ n then elem (x - 1) else elem x := by
    refine forLoop_inv _ (fun j m => ∀ x, m x = if n - j < x ∧ x ≤ n then elem (x - 1) else elem x)
      0 (n - i) elem ?_ ?_
    · intro x
      have h1 : ¬ (n - 0 < x ∧ x ≤ n) := by omega
      exact (if_neg h1).symm
    · intro j m _ hj hm x
      simp only [Function.update_apply]
      by_cases hx : x = n + 1 - 1 - j
      · have h1 : n - (j + 1) < x ∧ x ≤ n := by omega
        have h2 : ¬ (n - j < n - 1 - j ∧ n - 1 - j ≤ n) := by omega
        rw [if_pos hx, if_pos h1, hm (n - 1 - j), if_neg h2]
        congr 1
        omega
      · rw [if_neg hx, hm x]
        by_cases h3 : n - j < x ∧ x ≤ n
        · have h4 : n - (j + 1) < x ∧ x ≤ n := by omega
          rw [if_pos h3, if_pos h4]
        · have h4 : ¬ (n - (j + 1) < x ∧ x ≤ n) := by omega
          rw [if_neg h3, if_neg h4]
  unfold move_backward
  rw [key x]
  have : n - (0 + (n - i)) = i := by omega
  rw [this]

/-! ## Reading a buffer out as a sequence -/

theorem map_range_congr {T : Type} (n : Nat) (f g : Nat → T) (h : ∀ k, k < n → f k = g k) :
    (List.range n).map f = (List.range n).map g := by
  apply List.map_congr_left
  intro k hk
  exact h k (List.mem_range.mp hk)

theorem map_range_succ {T : Type} (n : Nat) (f : Nat → T) :
    (List.range (n + 1)).map f = (List.range n).map f ++ [f n] := by
  rw [List.range_succ, List.map_append, List.map_singleton]

theorem getElem_map_range {T : Type} (n : Nat) (f : Nat → T) (k : Nat)
    (hk : k < ((List.range n).map f).length) : ((List.range n).map f)[k] = f k := by
  simp

theorem map_range_getD {T : Type} (xs : List T) (d : T) :
    (List.range xs.length).map (fun i => xs.getD i d) = xs := by
  apply List.ext_getElem
  · simp
  · intro k h1 h2
    simp [List.getElem?_eq_getElem h2]

/-- A buffer whose slot `k` holds what slot `n-1-k` of another holds reads out reversed. -/
theorem map_range_reverse {T : Type} (n : Nat) (f g : Nat → T)
    (h : ∀ k, k < n → g k = f (n - 1 - k)) :
    (List.range n).map g = ((List.range n).map f).reverse := by
  apply List.ext_getElem
  · simp
  · intro k h1 h2
    have hk : k < n := by simpa using h1
    rw [List.getElem_reverse]
    simp only [List.getElem_map, List.getElem_range, List.length_map, List.length_range]
    exact h k hk

/-- A buffer obtained by opening a gap at slot `i` and storing `t` there. -/
theorem map_range_insert {T : Type} (n i : Nat) (f g : Nat → T) (t : T) (hi : i ≤ n)
    (hlo : ∀ k, k < i → g k = f k) (hat : g i = t)
    (hhi : ∀ k, i < k → k ≤ n → g k = f (k - 1)) :
    (List.range (n + 1)).map g
      = ((List.range n).map f).take i ++ t :: ((List.range n).map f).drop i := by
  apply List.ext_getElem
  · simp
    omega
  · intro k h1 h2
    have hk : k < n + 1 := by simpa using h1
    have hlen : (((List.range n).map f).take i).length = i := by simp; omega
    rw [getElem_map_range]
    by_cases c1 : k < i
    · rw [List.getElem_append_left (by rw [hlen]; exact c1), List.getElem_take]
      simp only [List.getElem_map, List.getElem_range]
      exact hlo k c1
    · rw [List.getElem_append_right (by rw [hlen]; omega)]
      by_cases c2 : k = i
      · subst c2
        simp [hlen, hat]
      · have c3 : k - (((List.range n).map f).take i).length = (k - i - 1) + 1 := by
          rw [hlen]; omega
        simp only [c3, List.getElem_cons_succ, List.getElem_drop, List.getElem_map,
          List.getElem_range]
        rw [hhi k (by omega) (by omega)]
        congr 1
        omega

theorem pairwise_map_range {T : Type} (R : T → T → Prop) (n : Nat) (f : Nat → T) :
    ((List.range n).map f).Pairwise R ↔ ∀ j, j < n → ∀ i, i < j → R (f i) (f j) := by
  rw [List.pairwise_iff_getElem]
  constructor
  · intro h j hj i hij
    have := h i j (by simp; omega) (by simpa using hj) hij
    simpa using this
  · intro h i j hi hj hij
    have hj2 : j < n := by simpa using hj
    simpa using h j hj2 i hij

/-! ## The compaction loop of `RemoveTagged` and the swap loop of `Reverse` -/

/-- A loop that copies the kept slots down to the front, in order, leaves in the first
`dest` slots the kept elements of the first `n` slots. -/
theorem compaction_spec {T : Type} (keep : T → Bool) (body : Nat → (Nat → T) × Nat → (Nat → T) × Nat)
    (hbody : ∀ src p, body src p =
      if keep (p.1 src) then
        (if src = p.2 then p.1 else Function.update p.1 p.2 (p.1 src), p.2 + 1)
      else p)
    (elem : Nat → T) (n : Nat) :
    (forLoop body 0 n (elem, 0)).2 ≤ n ∧
    (List.range (forLoop body 0 n (elem, 0)).2).map (forLoop body 0 n (elem, 0)).1
      = ((List.range n).map elem).filter keep := by
  have key := forLoop_inv body
    (fun j p => p.2 ≤ j ∧ (List.range p.2).map p.1 = ((List.range j).map elem).filter keep
      ∧ ∀ x, j ≤ x → p.1 x = elem x) 0 n (elem, 0) (by simp) (by
      intro j p _ _ hp
      obtain ⟨hd, hl, hrest⟩ := hp
      rw [hbody j p, map_range_succ, List.filter_append]
      have hj : p.1 j = elem j := hrest j (Nat.le_refl j)
      by_cases hk : keep (p.1 j) = true
      · rw [if_pos hk]
        have hk2 : keep (elem j) = true := by rw [← hj]; exact hk
        refine ⟨by simp; omega, ?_, ?_⟩
        · simp only [map_range_succ, List.filter_cons, List.filter_nil, hk2, if_true]
          congr 1
          · rw [← hl]
            apply map_range_congr
            intro k hkd
            by_cases hjd : j = p.2
            · rw [if_pos hjd]
            · rw [if_neg hjd, Function.update_apply, if_neg (by omega)]
          · by_cases hjd : j = p.2
            · rw [if_pos hjd, ← hjd, hj]
            · rw [if_neg hjd, Function.update_apply, if_pos rfl, hj]
        · intro x hx
          by_cases hjd : j = p.2
          · simp only [if_pos hjd]
            exact hrest x (by omega)
          · simp only [if_neg hjd]
            rw [Function.update_apply, if_neg (by omega)]
            exact hrest x (by omega)
      · rw [if_neg hk]
        have hk2 : keep (elem j) = false := by rw [← hj]; simpa using hk
        refine ⟨by omega, ?_, fun x hx => hrest x (by omega)⟩
        rw [show List.filter keep [elem j] = [] from by simp [hk2], List.append_nil]
        exact hl)
  simp only [Nat.zero_add] at key
  exact ⟨key.1, key.2.1⟩

/-- The swap loop of `Reverse` leaves in slot `x` what slot `n-1-x` held. -/
theorem reverse_loop_spec {T : Type} (elem : Nat → T) (n x : Nat) (hx : x < n) :
    forLoop (fun i m => swap m i ((n - 1) - i)) 0 (n / 2) elem x = elem (n - 1 - x) := by
  have key := forLoop_inv (fun i m => swap m i ((n - 1) - i))
    (fun j m => ∀ x, m x = if x < n ∧ (x < j ∨ n - j ≤ x) then elem (n - 1 - x) else elem x)
    0 (n / 2) elem (by
      intro y
      have : ¬ (y < n ∧ (y < 0 ∨ n - 0 ≤ y)) := by omega
      exact (if_neg this).symm) (by
      intro j m _ hj hm y
      have hj2 : 2 * j + 1 < n := by omega
      have e1 : m j = elem j := by
        rw [hm j, if_neg (by omega)]
      have e2 : m (n - 1 - j) = elem (n - 1 - j) := by
        rw [hm (n - 1 - j), if_neg (by omega)]
      simp only [swap, Function.update_apply]
      by_cases c1 : y = n - 1 - j
      · rw [if_pos c1, e1, if_pos (by omega)]
        congr 1
        omega
      · rw [if_neg c1]
        by_cases c2 : y = j
        · rw [if_pos c2, e2, if_pos (by omega), c2]
        · rw [if_neg c2, hm y]
          by_cases c3 : y < n ∧ (y < j ∨ n - j ≤ y)
          · rw [if_pos c3, if_pos (by omega)]
          · rw [if_neg c3, if_neg (by omega)])
  rw [key x]
  by_cases c : x < n ∧ (x < 0 + n / 2 ∨ n - (0 + n / 2) ≤ x)
  · rw [if_pos c]
  · rw [if_neg c]
    congr 1
    omega

/-! ## `List<T>`: what the operations leave in the buffer -/

namespace DscList

variable {T : Type}

theorem ofList_toList [Inhabited T] (xs : List T) (cap : Nat) : (ofList xs cap).toList = xs :=
  map_range_getD xs default

theorem RemoveTagged_toList {α : Type} (l : DscList (Tagged α)) :
    l.RemoveTagged.toList = l.toList.filter (fun e => decide (e.tag = 0)) ∧
    l.RemoveTagged.n ≤ l.n := by
  have h := compaction_spec (fun e : Tagged α => decide (e.tag = 0)) removeTaggedBody (by
    intro src p
    unfold removeTaggedBody
    by_cases c : (p.1 src).tag = 0
    · by_cases d : src = p.2 <;> simp [c, d]
    · simp [c]) l.elem l.n
  exact ⟨h.2, h.1⟩

theorem Reverse_toList (l : DscList T) : l.Reverse.toList = l.toList.reverse :=
  map_range_reverse l.n l.elem _ (fun k hk => reverse_loop_spec l.elem l.n k hk)

end DscList

/-! ## `RgbaColor`: packing as arithmetic -/

/-- Four bytes or-ed together at bit offsets 0, 8, 16 and 24 form a base-256 number. -/
theorem pack_bytes (a b c d : Nat) (ha : a < 256) (hb : b < 256) (hc : c < 256) (hd : d < 256) :
    a ||| (b <<< 8) % 2 ^ 32 ||| (c <<< 16) % 2 ^ 32 ||| (d <<< 24) % 2 ^ 32
      = a + 256 * b + 65536 * c + 16777216 * d := by
  have e1 : (b <<< 8) % 2 ^ 32 = 2 ^ 8 * b := by
    rw [Nat.shiftLeft_eq]; omega
  have e2 : (c <<< 16) % 2 ^ 32 = 2 ^ 16 * c := by
    rw [Nat.shiftLeft_eq]; omega
  have e3 : (d <<< 24) % 2 ^ 32 = 2 ^ 24 * d := by
    rw [Nat.shiftLeft_eq]; omega
  rw [e1, e2, e3]
  have s1 : a ||| 2 ^ 8 * b = 2 ^ 8 * b + a := by
    rw [Nat.or_comm]; exact (Nat.mul_add_lt_is_or (by omega) b).symm
  have s2 : 2 ^ 8 * b + a ||| 2 ^ 16 * c = 2 ^ 16 * c + (2 ^ 8 * b + a) := by
    rw [Nat.or_comm]; exact (Nat.mul_add_lt_is_or (by omega) c).symm
  have s3 : 2 ^ 16 * c + (2 ^ 8 * b + a) ||| 2 ^ 24 * d
      = 2 ^ 24 * d + (2 ^ 16 * c + (2 ^ 8 * b + a)) := by
    rw [Nat.or_comm]; exact (Nat.mul_add_lt_is_or (by omega) d).symm
  rw [s1, s2, s3]
  omega

theorem and_0xff (x : Nat) : x &&& 0xff = x % 256 := Nat.and_pow_two_sub_one_eq_mod x 8

namespace RgbaColor

theorem From_of_bytes (r g b a : Nat) (hr : r < 256) (hg : g < 256) (hb : b < 256)
    (ha : a < 256) : From (r : Int) (g : Int) (b : Int) (a : Int) = ⟨r, g, b, a⟩ := by
  unfold From
  congr 1 <;> omega

theorem FromPackedInt_ToPackedInt (c : RgbaColor) (hc : c.Valid) :
    FromPackedInt c.ToPackedInt = c := by
  obtain ⟨h1, h2, h3, h4⟩ := hc
  unfold FromPackedInt ToPackedInt
  rw [pack_bytes c.red c.green c.blue (255 - c.alpha) h1 h2 h3 (by omega)]
  simp only [and_0xff, Nat.shiftRight_eq_div_pow]
  rw [From_of_bytes _ _ _ _ (by omega) (by omega) (by omega) (by omega)]
  cases c
  simp only [RgbaColor.mk.injEq] at *
  refine ⟨?_, ?_, ?_, ?_⟩ <;> omega

theorem FromPackedIntBGRA_ToPackedIntBGRA (c : RgbaColor) (hc : c.Valid) :
    FromPackedIntBGRA c.ToPackedIntBGRA = c := by
  obtain ⟨h1, h2, h3, h4⟩ := hc
  unfold FromPackedIntBGRA ToPackedIntBGRA
  rw [pack_bytes c.blue c.green c.red (255 - c.alpha) h3 h2 h1 (by omega)]
  simp only [and_0xff, Nat.shiftRight_eq_div_pow]
  rw [From_of_bytes _ _ _ _ (by omega) (by omega) (by omega) (by omega)]
  cases c
  simp only [RgbaColor.mk.injEq] at *
  refine ⟨?_, ?_, ?_, ?_⟩ <;> omega

theorem Equals_self (c : RgbaColor) : c.Equals c = true := by
  simp [Equals]

end RgbaColor

/-! ## `IdList<T,H>`: the binary searches -/

namespace IdList

variable {α : Type}

/-- The search loop of `Add` on a sorted buffer: it trips the assertion exactly when the
handle value is stored, and otherwise returns the slot where it belongs. -/
theorem AddLoop_spec (elem : Nat → Item α) (n tv : Nat)
    (hs : ∀ j, j < n → ∀ i, i < j → (elem i).h.v < (elem j).h.v) :
    ∀ fuel first last, first ≤ last → last ≤ n → last - first < fuel →
      (∀ k, k < first → (elem k).h.v < tv) →
      (∀ k, last ≤ k → k < n → tv < (elem k).h.v) →
      ((∃ k, k < n ∧ (elem k).h.v = tv) ∧
          AddLoop elem tv fuel first last = .oops .handleNotUnique) ∨
      ((¬ ∃ k, k < n ∧ (elem k).h.v = tv) ∧
          ∃ i, AddLoop elem tv fuel first last = .ret i ∧ first ≤ i ∧ i ≤ last ∧
            (∀ k, k < i → (elem k).h.v < tv) ∧
            (∀ k, i ≤ k → k < n → tv < (elem k).h.v)) := by
  intro fuel
  induction fuel with
  | zero => intro first last _ _ hf; omega
  | succ f ih =>
    intro first last hfl hln hf hlo hhi
    rw [AddLoop]
    by_cases hne : first ≠ last
    · rw [if_pos hne]
      have hm1 : first ≤ (first + last) / 2 := by omega
      have hm2 : (first + last) / 2 < last := by omega
      simp only []
      by_cases c1 : (elem ((first + last) / 2)).h.v = tv
      · rw [if_pos c1]
        exact Or.inl ⟨⟨(first + last) / 2, by omega, c1⟩, rfl⟩
      · rw [if_neg c1]
        by_cases c2 : (elem ((first + last) / 2)).h.v > tv
        · rw [if_pos c2]
          have hhi2 : ∀ k, (first + last) / 2 ≤ k → k < n → tv < (elem k).h.v := by
            intro k hk hkn
            rcases Nat.eq_or_lt_of_le hk with e | e
            · rw [← e]; exact c2
            · exact Nat.lt_trans c2 (hs k hkn _ e)
          rcases ih first ((first + last) / 2) hm1 (by omega) (by omega) hlo hhi2 with r | r
          · exact Or.inl r
          · obtain ⟨hno, i, e, h1, h2, h3, h4⟩ := r
            exact Or.inr ⟨hno, i, e, h1, by omega, h3, h4⟩
        · rw [if_neg c2]
          have c3 : (elem ((first + last) / 2)).h.v < tv := by omega
          rw [if_pos c3]
          have hlo2 : ∀ k, k < (first + last) / 2 + 1 → (elem k).h.v < tv := by
            intro k hk
            rcases Nat.eq_or_lt_of_le (Nat.lt_succ_iff.mp hk) with e | e
            · rw [e]; exact c3
            · exact Nat.lt_trans (hs _ (by omega) k e) c3
          rcases ih ((first + last) / 2 + 1) last (by omega) hln (by omega) hlo2 hhi with r | r
          · exact Or.inl r
          · obtain ⟨hno, i, e, h1, h2, h3, h4⟩ := r
            exact Or.inr ⟨hno, i, e, by omega, h2, h3, h4⟩
    · rw [if_neg hne]
      have hfl2 : first = last := by omega
      refine Or.inr ⟨?_, first, rfl, Nat.le_refl _, hfl, hlo, ?_⟩
      · rintro ⟨k, hkn, hk⟩
        by_cases c : k < first
        · have := hlo k c; omega
        · have := hhi k (by omega) hkn; omega
      · intro k hk hkn
        exact hhi k (by omega) hkn

/-- The search loop of `IndexOf` on a sorted buffer. -/
theorem IndexOfLoop_spec (elem : Nat → Item α) (n hv : Nat)
    (hs : ∀ j, j < n → ∀ i, i < j → (elem i).h.v < (elem j).h.v) :
    ∀ (fuel : Nat) (first last : Int), 0 ≤ first → first ≤ last + 1 → last < n →
      last + 1 - first < fuel →
      (∀ k : Nat, (k : Int) < first → (elem k).h.v < hv) →
      (∀ k : Nat, last < (k : Int) → k < n → hv < (elem k).h.v) →
      (∃ i : Nat, i < n ∧ (elem i).h.v = hv ∧
          IndexOfLoop elem hv fuel first last = .ret (i : Int)) ∨
      ((¬ ∃ k, k < n ∧ (elem k).h.v = hv) ∧
          IndexOfLoop elem hv fuel first last = .ret (-1)) := by
  intro fuel
  induction fuel with
  | zero => intro first last _ _ _ hf; omega
  | succ f ih =>
    intro first last h0 hfl hln hf hlo hhi
    rw [IndexOfLoop]
    by_cases hle : first ≤ last
    · rw [if_pos hle]
      have hdiv : Int.tdiv (first + last) 2 = (first + last) / 2 :=
        Int.tdiv_eq_ediv (by omega) (by omega)
      obtain ⟨m, hm⟩ : ∃ m : Nat, (m : Int) = (first + last) / 2 :=
        ⟨((first + last) / 2).toNat, by omega⟩
      have hmt : ((first + last) / 2).toNat = m := by omega
      simp only [hdiv, hmt]
      rw [← hm]
      have hmn : m < n := by omega
      by_cases c1 : (elem m).h.v > hv
      · rw [if_pos c1]
        have hhi2 : ∀ k : Nat, (m : Int) - 1 < (k : Int) → k < n → hv < (elem k).h.v := by
          intro k hk hkn
          rcases Nat.eq_or_lt_of_le (show m ≤ k by omega) with e | e
          · rw [← e]; exact c1
          · exact Nat.lt_trans c1 (hs k hkn _ e)
        exact ih first ((m : Int) - 1) h0 (by omega) (by omega) (by omega) hlo hhi2
      · rw [if_neg c1]
        by_cases c2 : (elem m).h.v < hv
        · rw [if_pos c2]
          have hlo2 : ∀ k : Nat, (k : Int) < (m : Int) + 1 → (elem k).h.v < hv := by
            intro k hk
            rcases Nat.eq_or_lt_of_le (show k ≤ m by omega) with e | e
            · rw [e]; exact c2
            · exact Nat.lt_trans (hs _ hmn k e) c2
          exact ih ((m : Int) + 1) last (by omega) (by omega) hln (by omega) hlo2 hhi
        · rw [if_neg c2]
          exact Or.inl ⟨m, hmn, by omega, rfl⟩
    · rw [if_neg hle]
      refine Or.inr ⟨?_, rfl⟩
      rintro ⟨k, hkn, hk⟩
      by_cases c : (k : Int) < first
      · have := hlo k c; omega
      · have := hhi k (by omega) hkn; omega

/-- The loop of `FindByIdNoOops` is the loop of `IndexOf` with the index returned as a
pointer. -/
theorem FindByIdNoOopsLoop_eq (elem : Nat → Item α) (hv : Nat) :
    ∀ (fuel : Nat) (first last : Int), 0 ≤ first →
      FindByIdNoOopsLoop elem hv fuel first last
        = (IndexOfLoop elem hv fuel first last).map
            (fun r => if r < 0 then none else some r.toNat) := by
  intro fuel
  induction fuel with
  | zero => intro first last _; rfl
  | succ f ih =>
    intro first last h0
    rw [FindByIdNoOopsLoop, IndexOfLoop]
    by_cases hle : first ≤ last
    · rw [if_pos hle, if_pos hle]
      have hdiv : Int.tdiv (first + last) 2 = (first + last) / 2 :=
        Int.tdiv_eq_ediv (by omega) (by omega)
      simp only [hdiv]
      by_cases c1 : (elem ((first + last) / 2).toNat).h.v > hv
      · rw [if_pos c1, if_pos c1]
        exact ih first _ h0
      · rw [if_neg c1, if_neg c1]
        by_cases c2 : (elem ((first + last) / 2).toNat).h.v < hv
        · rw [if_pos c2, if_pos c2]
          exact ih _ last (by omega)
        · rw [if_neg c2, if_neg c2]
          have : ¬ ((first + last) / 2 < 0) := by omega
          simp [Outcome.map, this]
    · rw [if_neg hle, if_neg hle]
      simp [Outcome.map]

/-- In a sorted store a handle value occupies at most one slot. -/
theorem Sorted.slot_unique {l : IdList α} (hs : l.Sorted) {i j : Nat} (hi : i < l.n)
    (hj : j < l.n) (h : (l.elem i).h.v = (l.elem j).h.v) : i = j := by
  rcases Nat.lt_trichotomy i j with c | c | c
  · have := hs j hj i c; omega
  · exact c
  · have := hs i hi j c; omega

/-- `IndexOf` and `FindByIdNoOops` on a sorted store: both return, with the slot of the
handle or with the "not found" value. -/
theorem lookup_spec (l : IdList α) (hs : l.Sorted) (h : Handle) :
    (∃ i : Nat, i < l.n ∧ (l.elem i).h.v = h.v ∧
        l.IndexOf h = .ret (i : Int) ∧ l.FindByIdNoOops h = .ret (some i)) ∨
    (¬ l.Mem h.v ∧ l.IndexOf h = .ret (-1) ∧ l.FindByIdNoOops h = .ret none) := by
  have key := IndexOfLoop_spec l.elem l.n h.v hs (l.n + 1) 0 ((l.n : Int) - 1)
    (by omega) (by omega) (by omega) (by omega) (by intro k hk; omega)
    (by intro k hk hkn; omega)
  have rel := FindByIdNoOopsLoop_eq l.elem h.v (l.n + 1) 0 ((l.n : Int) - 1) (by omega)
  unfold IndexOf FindByIdNoOops
  rcases key with ⟨i, hi, hv, e⟩ | ⟨hno, e⟩
  · refine Or.inl ⟨i, hi, hv, e, ?_⟩
    rw [rel, e]
    have : ¬ ((i : Int) < 0) := by omega
    simp [Outcome.map]
  · refine Or.inr ⟨hno, e, ?_⟩
    rw [rel, e]
    simp [Outcome.map]

/-- A stored handle is found at its slot. -/
theorem lookup_found (l : IdList α) (hs : l.Sorted) (h : Handle) (i : Nat) (hi : i < l.n)
    (hv : (l.elem i).h.v = h.v) :
    l.IndexOf h = .ret (i : Int) ∧ l.FindByIdNoOops h = .ret (some i) := by
  rcases lookup_spec l hs h with ⟨j, hj, hvj, e1, e2⟩ | ⟨hno, _, _⟩
  · have : i = j := hs.slot_unique hi hj (by rw [hv, hvj])
    rw [this]
    exact ⟨e1, e2⟩
  · exact absurd ⟨i, hi, hv⟩ hno

/-- A handle that is not stored is reported as not found. -/
theorem lookup_absent (l : IdList α) (hs : l.Sorted) (h : Handle) (hno : ¬ l.Mem h.v) :
    l.IndexOf h = .ret (-1) ∧ l.FindByIdNoOops h = .ret none := by
  rcases lookup_spec l hs h with ⟨j, hj, hvj, _, _⟩ | ⟨_, e1, e2⟩
  · exact absurd ⟨j, hj, hvj⟩ hno
  · exact ⟨e1, e2⟩

end IdList

/-! ## `IdList<T,H>`: insertion -/

namespace IdList

variable {α : Type}

theorem toList_length (l : IdList α) : l.toList.length = l.n := by
  simp [toList]

theorem toList_ofList [Inhabited α] (xs : List (Item α)) (cap : Nat) :
    (ofList xs cap).toList = xs :=
  map_range_getD xs default

theorem sorted_iff_pairwise (l : IdList α) :
    l.Sorted ↔ l.toList.Pairwise (fun a b => a.h.v < b.h.v) :=
  (pairwise_map_range (fun a b : Item α => a.h.v < b.h.v) l.n l.elem).symm

theorem mem_iff (l : IdList α) (v : Nat) : l.Mem v ↔ v ∈ l.handles := by
  unfold Mem handles toList
  simp only [List.map_map, List.mem_map, List.mem_range, Function.comp]

theorem grow_n [Inhabited α] (l : IdList α) : l.grow.n = l.n := by
  unfold grow
  split <;> rfl

theorem grow_elemsAllocated [Inhabited α] (l : IdList α) :
    l.grow.elemsAllocated
      = if l.n ≥ l.elemsAllocated then (l.elemsAllocated + 32) * 2 else l.elemsAllocated := by
  unfold grow
  split <;> rfl

/-- Growing the buffer relocates every live element to the slot of the same index. -/
theorem grow_elem [Inhabited α] (l : IdList α) (k : Nat) (hk : k < l.n) :
    l.grow.elem k = l.elem k := by
  unfold grow
  split
  · have key := forLoop_inv (fun i (m : Nat → Item α) => Function.update m i (l.elem i))
      (fun j m => ∀ x, x < j → m x = l.elem x) 0 l.n (fun _ => default)
      (by intro x hx; omega) (by
        intro j m _ _ hm x hx
        show Function.update m j (l.elem j) x = l.elem x
        rw [Function.update_apply]
        by_cases c : x = j
        · rw [if_pos c, c]
        · rw [if_neg c]; exact hm x (by omega))
    exact key k (by omega)
  · rfl

/-- `Add` on a sorted store: the assertion trips exactly when the handle value is stored;
otherwise the call returns, having opened a gap at the slot `i` where the item belongs. -/
theorem Add_spec [Inhabited α] (l : IdList α) (hs : l.Sorted) (t : Item α) :
    (l.Mem t.h.v ∧ l.Add t = .oops .handleNotUnique) ∨
    (¬ l.Mem t.h.v ∧ ∃ s i, l.Add t = .ret s ∧ i ≤ l.n ∧ s.n = l.n + 1 ∧
      s.elemsAllocated = l.grow.elemsAllocated ∧
      (∀ k, k < i → s.elem k = l.elem k) ∧ s.elem i = t ∧
      (∀ k, i < k → k ≤ l.n → s.elem k = l.elem (k - 1)) ∧
      (∀ k, k < i → (l.elem k).h.v < t.h.v) ∧
      (∀ k, i ≤ k → k < l.n → t.h.v < (l.elem k).h.v)) := by
  have hn := grow_n l
  have hs1 : ∀ j, j < l.grow.n → ∀ i, i < j → (l.grow.elem i).h.v < (l.grow.elem j).h.v := by
    intro j hj i hij
    rw [hn] at hj
    rw [grow_elem l i (by omega), grow_elem l j hj]
    exact hs j hj i hij
  have key := AddLoop_spec l.grow.elem l.grow.n t.h.v hs1 (l.grow.n + 1) 0 l.grow.n
    (by omega) (by omega) (by omega) (by intro k hk; omega) (by intro k hk hkn; omega)
  have hmem : (∃ k, k < l.grow.n ∧ (l.grow.elem k).h.v = t.h.v) ↔ l.Mem t.h.v := by
    unfold Mem
    constructor
    · rintro ⟨k, hk, e⟩
      rw [hn] at hk
      exact ⟨k, hk, by rw [← grow_elem l k hk]; exact e⟩
    · rintro ⟨k, hk, e⟩
      exact ⟨k, by omega, by rw [grow_elem l k hk]; exact e⟩
  rcases key with ⟨hex, e⟩ | ⟨hno, i, e, _, hi, hlo, hhi⟩
  · refine Or.inl ⟨hmem.mp hex, ?_⟩
    unfold Add
    simp only [e]
  · refine Or.inr ⟨fun h => hno (hmem.mpr h),
      { elem := Function.update (move_backward i l.grow.n (l.grow.n + 1)
          (Function.update l.grow.elem l.grow.n default)) i t
        n := l.grow.n + 1
        elemsAllocated := l.grow.elemsAllocated },
      i, ?_, by omega, by simp only [hn], rfl, ?_, ?_, ?_, ?_, ?_⟩
    · unfold Add
      simp only [e]
    · intro k hk
      simp only []
      rw [Function.update_apply, if_neg (by omega), move_backward_shift i _ hi,
        if_neg (by omega), Function.update_apply, if_neg (by omega)]
      exact grow_elem l k (by omega)
    · simp only [Function.update_same]
    · intro k hik hkn
      simp only []
      rw [Function.update_apply, if_neg (by omega), move_backward_shift i _ hi,
        if_pos (by omega), Function.update_apply, if_neg (by omega)]
      exact grow_elem l (k - 1) (by omega)
    · intro k hk
      rw [← grow_elem l k (by omega)]
      exact hlo k hk
    · intro k hik hkn
      rw [← grow_elem l k hkn]
      exact hhi k hik (by omega)

/-- `Add` never exhausts the budget of its search loop on a sorted store. -/
theorem Add_ne_outOfFuel [Inhabited α] (l : IdList α) (hs : l.Sorted) (t : Item α) :
    l.Add t ≠ .outOfFuel := by
  rcases Add_spec l hs t with ⟨_, e⟩ | ⟨_, s, i, e, _⟩ <;> rw [e] <;> simp

/-- A returning `Add` leaves the store sorted, holding the old elements and the item. -/
theorem Add_ret [Inhabited α] (l : IdList α) (hs : l.Sorted) (t : Item α) (s : IdList α)
    (e : l.Add t = .ret s) :
    s.Sorted ∧ s.n = l.n + 1 ∧ ¬ l.Mem t.h.v ∧
    ∃ i, i ≤ l.n ∧ s.toList = l.toList.take i ++ t :: l.toList.drop i ∧
      (∀ k, k < i → (l.elem k).h.v < t.h.v) ∧
      (∀ k, i ≤ k → k < l.n → t.h.v < (l.elem k).h.v) := by
  rcases Add_spec l hs t with ⟨_, e2⟩ | ⟨hno, s2, i, e2, hi, hn, _, hlo, hat, hhi, hlt, hgt⟩
  · rw [e2] at e; cases e
  · rw [e2] at e
    cases e
    refine ⟨?_, hn, hno, i, hi, ?_, hlt, hgt⟩
    · intro j hj k hkj
      rw [hn] at hj
      rcases Nat.lt_trichotomy j i with c | c | c
      · rw [hlo j c, hlo k (by omega)]
        exact hs j (by omega) k hkj
      · rw [c, hat, hlo k (by omega)]
        exact hlt k (by omega)
      · rw [hhi j c (by omega)]
        rcases Nat.lt_trichotomy k i with d | d | d
        · rw [hlo k d]
          exact hs (j - 1) (by omega) k (by omega)
        · rw [d, hat]
          exact hgt (j - 1) (by omega) (by omega)
        · rw [hhi k d (by omega)]
          exact hs (j - 1) (by omega) (k - 1) (by omega)
    · unfold toList
      rw [hn]
      exact map_range_insert l.n i l.elem s.elem t hi hlo hat hhi

theorem Add_perm [Inhabited α] (l : IdList α) (hs : l.Sorted) (t : Item α) (s : IdList α)
    (e : l.Add t = .ret s) : s.toList.Perm (t :: l.toList) := by
  obtain ⟨_, _, _, i, _, h, _, _⟩ := Add_ret l hs t s e
  rw [h]
  refine List.perm_middle.trans ?_
  rw [List.take_append_drop]

end IdList

/-! ## `IdList<T,H>`: tags and removal -/

namespace IdList

variable {α : Type}

theorem sorted_iff_handles (l : IdList α) : l.Sorted ↔ l.handles.Pairwise (fun a b => a < b) := by
  rw [sorted_iff_pairwise, handles, List.pairwise_map]

/-- Stores of the same length whose slots carry the same handles have the same handles. -/
theorem handles_congr (l s : IdList α) (hn : s.n = l.n)
    (h : ∀ k, k < l.n → (s.elem k).h = (l.elem k).h) : s.handles = l.handles := by
  unfold handles toList
  rw [List.map_map, List.map_map, hn]
  apply map_range_congr
  intro k hk
  simp only [Function.comp, h k hk]

theorem ClearTags_elem (l : IdList α) (x : Nat) :
    l.ClearTags.elem x = if x < l.n then { l.elem x with tag := 0 } else l.elem x := by
  have key := forLoop_inv (fun i (m : Nat → Item α) => Function.update m i { m i with tag := 0 })
    (fun j m => ∀ x, m x = if x < j then { l.elem x with tag := 0 } else l.elem x) 0 l.n l.elem
    (by intro x; rw [if_neg (by omega)]) (by
      intro j m _ _ hm x
      show Function.update m j { m j with tag := 0 } x = _
      rw [Function.update_apply]
      by_cases c : x = j
      · rw [if_pos c, if_pos (by omega), hm j, if_neg (by omega), c]
      · rw [if_neg c, hm x]
        by_cases d : x < j
        · rw [if_pos d, if_pos (by omega)]
        · rw [if_neg d, if_neg (by omega)])
  have := key x
  simpa using this

theorem Tag_elem (l : IdList α) (h : Handle) (tag : Int) (x : Nat) :
    (l.Tag h tag).elem x
      = if x < l.n ∧ (l.elem x).h.v = h.v then { l.elem x with tag := tag } else l.elem x := by
  have key := forLoop_inv (fun i (m : Nat → Item α) =>
      if (m i).h.v = h.v then Function.update m i { m i with tag := tag } else m)
    (fun j m => ∀ x, m x
      = if x < j ∧ (l.elem x).h.v = h.v then { l.elem x with tag := tag } else l.elem x)
    0 l.n l.elem
    (by intro x; rw [if_neg (by omega)]) (by
      intro j m _ _ hm x
      have hj : m j = l.elem j := by rw [hm j, if_neg (by omega)]
      show (if (m j).h.v = h.v then Function.update m j { m j with tag := tag } else m) x = _
      rw [hj]
      by_cases c : (l.elem j).h.v = h.v
      · rw [if_pos c, Function.update_apply]
        by_cases d : x = j
        · rw [if_pos d, d, if_pos ⟨by omega, c⟩]
        · rw [if_neg d, hm x]
          by_cases e : x < j ∧ (l.elem x).h.v = h.v
          · rw [if_pos e, if_pos ⟨by omega, e.2⟩]
          · rw [if_neg e, if_neg (by intro e2; exact e ⟨by omega, e2.2⟩)]
      · rw [if_neg c, hm x]
        by_cases e : x < j ∧ (l.elem x).h.v = h.v
        · rw [if_pos e, if_pos ⟨by omega, e.2⟩]
        · rw [if_neg e, if_neg (by
            intro e2
            by_cases d : x = j
            · rw [d] at e2; exact c e2.2
            · exact e ⟨by omega, e2.2⟩)])
  have := key x
  simpa using this

theorem ClearTags_handles (l : IdList α) : l.ClearTags.handles = l.handles := by
  apply handles_congr l l.ClearTags rfl
  intro k hk
  rw [ClearTags_elem, if_pos hk]

theorem Tag_handles (l : IdList α) (h : Handle) (tag : Int) :
    (l.Tag h tag).handles = l.handles := by
  apply handles_congr l (l.Tag h tag) rfl
  intro k hk
  rw [Tag_elem]
  split <;> rfl

theorem toList_RemoveTagged (l : IdList α) :
    l.RemoveTagged.toList = l.toList.filter (fun e => decide (e.tag = 0)) ∧
    l.RemoveTagged.n ≤ l.n := by
  have h := compaction_spec (fun e : Item α => decide (e.tag = 0)) removeTaggedBody (by
    intro src p
    unfold removeTaggedBody
    by_cases c : (p.1 src).tag = 0
    · by_cases d : src = p.2 <;> simp [c, d]
    · simp [c]) l.elem l.n
  exact ⟨h.2, h.1⟩

theorem RemoveTagged_handles (l : IdList α) : l.RemoveTagged.handles.Sublist l.handles := by
  unfold handles
  rw [(toList_RemoveTagged l).1]
  exact List.Sublist.map _ (List.filter_sublist _)

/-- A store whose handles are a subsequence of those of a sorted store is sorted. -/
theorem Sorted.of_sublist {l s : IdList α} (hs : l.Sorted) (h : s.handles.Sublist l.handles) :
    s.Sorted := by
  rw [sorted_iff_handles] at hs ⊢
  exact List.Pairwise.sublist h hs

theorem Sorted.of_handles_eq {l s : IdList α} (hs : l.Sorted) (h : s.handles = l.handles) :
    s.Sorted := by
  rw [sorted_iff_handles] at hs ⊢
  rw [h]; exact hs

/-- `FindById` on a sorted store. -/
theorem FindById_spec (l : IdList α) (hs : l.Sorted) (h : Handle) :
    (∃ i, i < l.n ∧ (l.elem i).h.v = h.v ∧ l.FindById h = .ret i) ∨
    (¬ l.Mem h.v ∧ l.FindById h = .oops .cannotFindHandle) := by
  unfold FindById
  rcases lookup_spec l hs h with ⟨i, hi, hv, _, e⟩ | ⟨hno, _, e⟩
  · exact Or.inl ⟨i, hi, hv, by rw [e]⟩
  · exact Or.inr ⟨hno, by rw [e]⟩

/-- `RemoveById` on a sorted store: it trips the assertion when the handle is absent and
otherwise returns a store whose handles are a subsequence of the old ones. -/
theorem RemoveById_spec (l : IdList α) (hs : l.Sorted) (h : Handle) :
    (¬ l.Mem h.v ∧ l.RemoveById h = .oops .cannotFindHandle) ∨
    (l.Mem h.v ∧ ∃ s, l.RemoveById h = .ret s ∧ s.handles.Sublist l.handles) := by
  have hc : l.ClearTags.Sorted := hs.of_handles_eq (ClearTags_handles l)
  have hmem : l.ClearTags.Mem h.v ↔ l.Mem h.v := by
    rw [mem_iff, mem_iff, ClearTags_handles]
  unfold RemoveById
  rcases FindById_spec l.ClearTags hc h with ⟨i, hi, hv, e⟩ | ⟨hno, e⟩
  · refine Or.inr ⟨hmem.mp ⟨i, hi, hv⟩, ?_⟩
    simp only [e]
    refine ⟨_, rfl, ?_⟩
    refine (RemoveTagged_handles _).trans ?_
    rw [← ClearTags_handles l]
    have e2 : ∀ s : IdList α, s.handles = l.ClearTags.handles →
        s.handles.Sublist l.ClearTags.handles := by
      intro s hs2; rw [hs2]
    apply e2
    refine handles_congr l.ClearTags _ ?_ ?_
    · rfl
    · intro k hk
      simp only [Function.update_apply]
      split
      · next c => rw [c]
      · rfl
  · refine Or.inl ⟨fun hm => hno (hmem.mpr hm), ?_⟩
    simp only [e]

/-! ## `IdList<T,H>`: assigning handles -/

/-- `MaximumId` bounds every stored handle value, is attained when the store is not
empty, and is 0 when it is. -/
theorem MaximumId_spec (l : IdList α) :
    (∀ k, k < l.n → (l.elem k).h.v ≤ l.MaximumId) ∧
    (l.n = 0 → l.MaximumId = 0) ∧
    (0 < l.n → ∃ k, k < l.n ∧ (l.elem k).h.v = l.MaximumId) := by
  have key := forLoop_inv (fun i id => max id (l.elem i).h.v)
    (fun j id => (∀ k, k < j → (l.elem k).h.v ≤ id) ∧
      (id = 0 ∨ ∃ k, k < j ∧ (l.elem k).h.v = id)) 0 l.n 0
    ⟨by intro k hk; omega, Or.inl rfl⟩ (by
      intro j id _ _ hp
      obtain ⟨h1, h2⟩ := hp
      show (∀ k, k < j + 1 → (l.elem k).h.v ≤ max id (l.elem j).h.v) ∧
        (max id (l.elem j).h.v = 0 ∨ ∃ k, k < j + 1 ∧ (l.elem k).h.v = max id (l.elem j).h.v)
      constructor
      · intro k hk
        by_cases c : k = j
        · rw [c]; exact Nat.le_max_right _ _
        · exact Nat.le_trans (h1 k (by omega)) (Nat.le_max_left _ _)
      · by_cases c : id ≤ (l.elem j).h.v
        · exact Or.inr ⟨j, by omega, by rw [Nat.max_eq_right c]⟩
        · rw [Nat.max_eq_left (by omega)]
          rcases h2 with e | ⟨k, hk, e⟩
          · exact Or.inl e
          · exact Or.inr ⟨k, by omega, e⟩)
  simp only [Nat.zero_add] at key
  obtain ⟨h1, h2⟩ := key
  refine ⟨h1, ?_, ?_⟩
  · intro hn
    rcases h2 with e | ⟨k, hk, _⟩
    · exact e
    · omega
  · intro hn
    rcases h2 with e | r
    · refine ⟨0, hn, ?_⟩
      have := h1 0 hn
      unfold MaximumId at *
      omega
    · exact r

/-- `AddAndAssignId` when `MaximumId() + 1` does not wrap around. -/
theorem AddAndAssignId_spec [Inhabited α] (l : IdList α) (hs : l.Sorted) (t : Item α)
    (hmax : l.MaximumId + 1 < UINT32_MOD) :
    ∃ r, l.AddAndAssignId t = .ret r ∧
      r.handle.v = l.MaximumId + 1 ∧ r.item = { t with h := r.handle } ∧
      r.store.Sorted ∧ r.store.n = l.n + 1 ∧
      r.store.toList = l.toList ++ [r.item] ∧
      (∀ k, k < l.n → (l.elem k).h.v < r.handle.v) := by
  have hmod : (l.MaximumId + 1) % UINT32_MOD = l.MaximumId + 1 := Nat.mod_eq_of_lt hmax
  obtain ⟨hle, _, _⟩ := MaximumId_spec l
  have hnot : ¬ l.Mem ({ t with h := ⟨l.MaximumId + 1⟩ } : Item α).h.v := by
    rintro ⟨k, hk, e⟩
    have := hle k hk
    simp only [] at e
    omega
  rcases Add_spec l hs { t with h := ⟨l.MaximumId + 1⟩ } with ⟨hm, _⟩ | ⟨_, s, i, e, _⟩
  · exact absurd hm hnot
  · obtain ⟨hsort, hn, _, j, hj, hlist, _, hgt⟩ := Add_ret l hs _ s e
    have hjn : j = l.n := by
      by_contra c
      have h1 := hgt j (Nat.le_refl j) (by omega)
      have h2 := hle j (by omega)
      simp only [] at h1
      omega
    refine ⟨{ store := s, item := { t with h := ⟨l.MaximumId + 1⟩ },
              handle := ⟨l.MaximumId + 1⟩ }, ?_, rfl, rfl, hsort, hn, ?_, ?_⟩
    · unfold AddAndAssignId
      simp only [hmod, e]
    · rw [hlist, hjn, ← toList_length l, List.take_length, List.drop_length]
    · intro k hk
      have := hle k hk
      show (l.elem k).h.v < l.MaximumId + 1
      omega

/-- A returning `AddAndAssignId` leaves the store sorted, wrap-around or not. -/
theorem AddAndAssignId_sorted [Inhabited α] (l : IdList α) (hs : l.Sorted) (t : Item α)
    (r : Assigned α) (e : l.AddAndAssignId t = .ret r) : r.store.Sorted := by
  unfold AddAndAssignId at e
  dsimp only at e
  split at e
  · next l1 h1 =>
    cases e
    exact (Add_ret l hs _ l1 h1).1
  · cases e
  · cases e

theorem AddAndAssignId_ne_outOfFuel [Inhabited α] (l : IdList α) (hs : l.Sorted) (t : Item α) :
    l.AddAndAssignId t ≠ .outOfFuel := by
  unfold AddAndAssignId
  rcases Add_spec l hs { t with h := ⟨(l.MaximumId + 1) % UINT32_MOD⟩ } with
    ⟨_, e⟩ | ⟨_, s, i, e, _⟩ <;> simp only [e] <;> simp

end IdList

/-! ## Client runs -/

namespace IdList

variable {α : Type}

theorem elem_mem_handles (l : IdList α) (k : Nat) (hk : k < l.n) :
    (l.elem k).h.v ∈ l.handles :=
  (mem_iff l _).mp ⟨k, hk, rfl⟩

theorem Add_handles_perm [Inhabited α] (l : IdList α) (hs : l.Sorted) (t : Item α)
    (s : IdList α) (e : l.Add t = .ret s) : s.handles.Perm (t.h.v :: l.handles) := by
  unfold handles
  exact (Add_perm l hs t s e).map _

/-- Inserting items whose handle values are distinct from one another and from the stored
ones: every `Add` returns and the store ends up sorted, holding old and new items. -/
theorem AddAll_spec [Inhabited α] (items : List (Item α)) :
    ∀ l : IdList α, l.Sorted → (l.handles ++ items.map (fun e => e.h.v)).Nodup →
      ∃ s, AddAll items l = .ret s ∧ s.Sorted ∧ s.toList.Perm (l.toList ++ items) ∧
        s.n = l.n + items.length := by
  induction items with
  | nil =>
    intro l hs _
    exact ⟨l, rfl, hs, by simp, by simp⟩
  | cons t ts ih =>
    intro l hs hnd
    have hnot : ¬ l.Mem t.h.v := by
      rw [mem_iff]
      intro hm
      rw [List.map_cons] at hnd
      have := (List.nodup_append.mp hnd).2.2
      exact this hm (List.mem_cons_self _ _)
    rcases Add_spec l hs t with ⟨hm, _⟩ | ⟨_, l1, i, e, _⟩
    · exact absurd hm hnot
    · obtain ⟨hs1, hn1, _, _⟩ := Add_ret l hs t l1 e
      have hp := Add_handles_perm l hs t l1 e
      have hnd1 : (l1.handles ++ ts.map (fun e => e.h.v)).Nodup := by
        refine (List.Perm.nodup_iff ?_).mpr hnd
        rw [List.map_cons]
        exact (hp.append_right _).trans List.perm_middle.symm
      obtain ⟨s, es, hss, hperm, hsn⟩ := ih l1 hs1 hnd1
      refine ⟨s, ?_, hss, ?_, ?_⟩
      · rw [AddAll]
        simp only [e]
        exact es
      · refine hperm.trans ?_
        exact ((Add_perm l hs t l1 e).append_right ts).trans List.perm_middle.symm
      · rw [hsn, hn1, List.length_cons]
        omega

theorem empty_sorted [Inhabited α] : (empty : IdList α).Sorted := by
  intro j hj
  exact absurd hj (Nat.not_lt_zero j)

/-- The run invariant: the store is sorted and no stored handle value exceeds the number
of handles `AddAndAssignId` has returned so far. -/
theorem step_inv [Inhabited α] (st st1 : RunState α) (s : Step α)
    (hs : st.store.Sorted) (hb : ∀ v, v ∈ st.store.handles → v ≤ st.returned.length)
    (e : step st s = .ret st1) (hlen : st1.returned.length < UINT32_MOD) :
    st1.store.Sorted ∧ ∀ v, v ∈ st1.store.handles → v ≤ st1.returned.length := by
  cases s with
  | addAndAssignId t =>
    have hM : st.store.MaximumId ≤ st.returned.length := by
      obtain ⟨_, h0, h1⟩ := MaximumId_spec st.store
      rcases Nat.eq_zero_or_pos st.store.n with c | c
      · rw [h0 c]; omega
      · obtain ⟨k, hk, ek⟩ := h1 c
        rw [← ek]
        exact hb _ (elem_mem_handles _ k hk)
    rw [step] at e
    cases hr : st.store.AddAndAssignId t with
    | ret r =>
      rw [hr] at e
      cases e
      simp only [List.length_cons] at hlen ⊢
      obtain ⟨r2, e2, hv, hitem, hsort, _, hlist, _⟩ :=
        AddAndAssignId_spec st.store hs t (by omega)
      rw [hr] at e2
      cases e2
      refine ⟨hsort, ?_⟩
      intro v hv2
      unfold handles at hv2
      rw [hlist, List.map_append, List.mem_append] at hv2
      rcases hv2 with c | c
      · exact Nat.le_succ_of_le (hb v c)
      · simp only [List.map_singleton, List.mem_singleton] at c
        rw [c, hitem]
        show r.handle.v ≤ st.returned.length + 1
        omega
    | oops o => rw [hr] at e; cases e
    | outOfFuel => rw [hr] at e; cases e
  | removeById h =>
    rw [step] at e
    rcases RemoveById_spec st.store hs h with ⟨_, e2⟩ | ⟨_, s2, e2, hsub⟩
    · rw [e2] at e; cases e
    · rw [e2] at e
      cases e
      exact ⟨hs.of_sublist hsub, fun v hv => hb v (hsub.subset hv)⟩
  | removeTagged =>
    rw [step] at e
    cases e
    exact ⟨hs.of_sublist (RemoveTagged_handles _),
      fun v hv => hb v ((RemoveTagged_handles _).subset hv)⟩

theorem step_length [Inhabited α] (st st1 : RunState α) (s : Step α)
    (e : step st s = .ret st1) : st.returned.length ≤ st1.returned.length := by
  cases s with
  | addAndAssignId t =>
    rw [step] at e
    cases hr : st.store.AddAndAssignId t with
    | ret r => rw [hr] at e; cases e; simp
    | oops o => rw [hr] at e; cases e
    | outOfFuel => rw [hr] at e; cases e
  | removeById h =>
    rw [step] at e
    cases hr : st.store.RemoveById h with
    | ret r => rw [hr] at e; cases e; exact Nat.le_refl _
    | oops o => rw [hr] at e; cases e
    | outOfFuel => rw [hr] at e; cases e
  | removeTagged =>
    rw [step] at e
    cases e
    exact Nat.le_refl _

theorem run_cons_ret [Inhabited α] (s : Step α) (ss : List (Step α)) (st st2 : RunState α)
    (e : run (s :: ss) st = .ret st2) : ∃ st1, step st s = .ret st1 ∧ run ss st1 = .ret st2 := by
  rw [run] at e
  cases hr : step st s with
  | ret st1 => rw [hr] at e; exact ⟨st1, rfl, e⟩
  | oops o => rw [hr] at e; cases e
  | outOfFuel => rw [hr] at e; cases e

theorem run_length [Inhabited α] (ss : List (Step α)) :
    ∀ st st2 : RunState α, run ss st = .ret st2 →
      st.returned.length ≤ st2.returned.length := by
  induction ss with
  | nil => intro st st2 e; rw [run] at e; cases e; exact Nat.le_refl _
  | cons s ss ih =>
    intro st st2 e
    obtain ⟨st1, e1, e2⟩ := run_cons_ret s ss st st2 e
    exact Nat.le_trans (step_length st st1 s e1) (ih st1 st2 e2)

theorem run_inv [Inhabited α] (ss : List (Step α)) :
    ∀ st st2 : RunState α, st.store.Sorted →
      (∀ v, v ∈ st.store.handles → v ≤ st.returned.length) →
      run ss st = .ret st2 → st2.returned.length < UINT32_MOD →
      st2.store.Sorted ∧ ∀ v, v ∈ st2.store.handles → v ≤ st2.returned.length := by
  induction ss with
  | nil => intro st st2 hs hb e _; rw [run] at e; cases e; exact ⟨hs, hb⟩
  | cons s ss ih =>
    intro st st2 hs hb e hlen
    obtain ⟨st1, e1, e2⟩ := run_cons_ret s ss st st2 e
    have h1 := run_length ss st1 st2 e2
    obtain ⟨hs1, hb1⟩ := step_inv st st1 s hs hb e1 (by omega)
    exact ih st1 st2 hs1 hb1 e2 hlen

theorem run_snoc [Inhabited α] (ss : List (Step α)) (s : Step α) :
    ∀ st st1 : RunState α, run ss st = .ret st1 → run (ss ++ [s]) st = step st1 s := by
  induction ss with
  | nil =>
    intro st st1 e
    rw [run] at e
    cases e
    rw [List.nil_append, run]
    cases step st s <;> rfl
  | cons a ss ih =>
    intro st st1 e
    obtain ⟨st0, e1, e2⟩ := run_cons_ret a ss st st1 e
    rw [List.cons_append, run]
    simp only [e1]
    exact ih st0 st1 e2

end IdList

/-! ## `List<T>`: appending, dropping and walking -/

theorem map_range_take {T : Type} (n m : Nat) (f : Nat → T) (hm : m ≤ n) :
    (List.range m).map f = ((List.range n).map f).take m := by
  apply List.ext_getElem
  · simp; omega
  · intro k h1 h2
    simp

namespace DscList

variable {T : Type}

theorem AllocForOneMore_n [Inhabited T] (l : DscList T) : l.AllocForOneMore.n = l.n := by
  unfold AllocForOneMore
  split <;> rfl

theorem AllocForOneMore_elemsAllocated [Inhabited T] (l : DscList T) :
    l.AllocForOneMore.elemsAllocated
      = if l.n ≥ l.elemsAllocated then (l.elemsAllocated + 32) * 2 else l.elemsAllocated := by
  unfold AllocForOneMore
  split <;> rfl

/-- Growing the buffer relocates every live element to the slot of the same index. -/
theorem AllocForOneMore_elem [Inhabited T] (l : DscList T) (k : Nat) (hk : k < l.n) :
    l.AllocForOneMore.elem k = l.elem k := by
  unfold AllocForOneMore
  split
  · have key := forLoop_inv (fun i (m : Nat → T) => Function.update m i (l.elem i))
      (fun j m => ∀ x, x < j → m x = l.elem x) 0 l.n (fun _ => default)
      (by intro x hx; omega) (by
        intro j m _ _ hm x hx
        show Function.update m j (l.elem j) x = l.elem x
        rw [Function.update_apply]
        by_cases c : x = j
        · rw [if_pos c, c]
        · rw [if_neg c]; exact hm x (by omega))
    exact key k (by omega)
  · rfl

/-- After growth there is room for one more element. -/
theorem AllocForOneMore_room [Inhabited T] (l : DscList T) (h : l.WithinCapacity) :
    l.AllocForOneMore.n + 1 ≤ l.AllocForOneMore.elemsAllocated := by
  unfold WithinCapacity at h
  rw [AllocForOneMore_n, AllocForOneMore_elemsAllocated]
  split <;> omega

theorem Add_elem_old [Inhabited T] (l : DscList T) (t : T) (k : Nat) (hk : k < l.n) :
    (l.Add t).elem k = l.elem k := by
  show Function.update l.AllocForOneMore.elem l.AllocForOneMore.n t k = l.elem k
  rw [Function.update_apply, AllocForOneMore_n, if_neg (by omega)]
  exact AllocForOneMore_elem l k hk

theorem Add_elem_new [Inhabited T] (l : DscList T) (t : T) : (l.Add t).elem l.n = t := by
  show Function.update l.AllocForOneMore.elem l.AllocForOneMore.n t l.n = t
  rw [AllocForOneMore_n, Function.update_same]

theorem Add_n [Inhabited T] (l : DscList T) (t : T) : (l.Add t).n = l.n + 1 := by
  show l.AllocForOneMore.n + 1 = l.n + 1
  rw [AllocForOneMore_n]

theorem Add_toList [Inhabited T] (l : DscList T) (t : T) :
    (l.Add t).toList = l.toList ++ [t] := by
  unfold toList
  rw [Add_n, map_range_succ, Add_elem_new]
  congr 1
  exact map_range_congr l.n _ _ (fun k hk => Add_elem_old l t k hk)

theorem RemoveTagged_n_le {α : Type} (l : DscList (Tagged α)) : l.RemoveTagged.n ≤ l.n :=
  (RemoveTagged_toList l).2

/-- The cursor that addresses slot `i` when it is live and is `NULL` past the end. -/
theorem walk_from (l : DscList T) :
    ∀ d i, i + d = l.n →
      walk l d (if i < l.n then some i else none) = .ret ((List.range d).map (fun k => i + k)) := by
  intro d
  induction d with
  | zero =>
    intro i hi
    rw [if_neg (by omega)]
    rfl
  | succ d ih =>
    intro i hi
    rw [if_pos (by omega), walk]
    have hnext : l.NextAfter (some i) = if i + 1 < l.n then some (i + 1) else none := by
      unfold NextAfter
      by_cases c : i + 1 < l.n
      · rw [if_pos c]
        simp only []
        rw [if_neg (by omega)]
      · rw [if_neg c]
        simp only []
        rw [if_pos (by omega)]
    rw [hnext, ih (i + 1) (by omega)]
    simp only [Outcome.map]
    rw [List.range_succ_eq_map, List.map_cons, List.map_map]
    congr 2
    apply List.map_congr_left
    intro k _
    simp only [Function.comp, Nat.succ_eq_add_one]
    omega

theorem traverse_eq (l : DscList T) : l.traverse = .ret (List.range l.n) := by
  unfold traverse First
  have h := walk_from l l.n 0 (by omega)
  have e : (if 0 < l.n then some 0 else none) = (if l.n = 0 then none else some 0) := by
    by_cases c : l.n = 0
    · rw [if_pos c, if_neg (by omega)]
    · rw [if_neg c, if_pos (by omega)]
  rw [e] at h
  rw [h]
  congr 1
  simp

end DscList

/-! ## `IdList<T,H>`: removal by handle, transfer and copy -/

/-- Overwriting one slot of a buffer overwrites one position of the sequence read out. -/
theorem map_range_set {T : Type} (n i : Nat) (f : Nat → T) (y : T) :
    ((List.range n).map f).set i y = (List.range n).map (Function.update f i y) := by
  apply List.ext_getElem
  · simp
  · intro k h1 h2
    rw [List.getElem_set]
    simp only [List.getElem_map, List.getElem_range, Function.update_apply]
    by_cases c : i = k
    · rw [if_pos c, if_pos c.symm]
    · rw [if_neg c, if_neg (fun e => c e.symm)]

/-- Filtering a sequence in which only position `i` fails the test erases position `i`. -/
theorem filter_set_eraseIdx {T : Type} (p : T → Bool) (y : T) (hy : p y = false) :
    ∀ (xs : List T) (i : Nat), (∀ x, x ∈ xs → p x = true) → i < xs.length →
      (xs.set i y).filter p = xs.eraseIdx i := by
  intro xs
  induction xs with
  | nil => intro i _ hi; simp at hi
  | cons x xs ih =>
    intro i hall hi
    cases i with
    | zero =>
      rw [List.set_cons_zero, List.eraseIdx_cons_zero, List.filter_cons, hy]
      simp only [Bool.false_eq_true, if_false]
      exact List.filter_eq_self.mpr (fun a ha => hall a (List.mem_cons_of_mem _ ha))
    | succ j =>
      rw [List.set_cons_succ, List.eraseIdx_cons_succ, List.filter_cons,
        hall x (List.mem_cons_self _ _)]
      simp only [if_true]
      rw [ih j (fun a ha => hall a (List.mem_cons_of_mem _ ha))
        (by simpa using hi)]

namespace IdList

variable {α : Type}

theorem elem_mem_toList (l : IdList α) (k : Nat) (hk : k < l.n) : l.elem k ∈ l.toList := by
  unfold toList
  exact List.mem_map.mpr ⟨k, List.mem_range.mpr hk, rfl⟩

theorem ClearTags_toList (l : IdList α) :
    l.ClearTags.toList = l.toList.map (fun e => { e with tag := 0 }) := by
  unfold toList
  rw [List.map_map]
  apply map_range_congr
  intro k hk
  rw [ClearTags_elem, if_pos (show k < l.n from hk)]
  rfl

/-- `RemoveById` of a stored handle: all tags are cleared and the slot of the handle is
dropped. -/
theorem RemoveById_found (l : IdList α) (hs : l.Sorted) (h : Handle) (i : Nat) (hi : i < l.n)
    (hv : (l.elem i).h.v = h.v) :
    ∃ s, l.RemoveById h = .ret s ∧
      s.toList = (l.toList.map (fun e => { e with tag := 0 })).eraseIdx i ∧
      s.elemsAllocated = l.elemsAllocated := by
  have hc : l.ClearTags.Sorted := hs.of_handles_eq (ClearTags_handles l)
  have hci : (l.ClearTags.elem i).h.v = h.v := by
    rw [ClearTags_elem, if_pos hi]; exact hv
  rcases FindById_spec l.ClearTags hc h with ⟨j, hj, hvj, e⟩ | ⟨hno, _⟩
  · have hij : j = i := hc.slot_unique hj hi (by rw [hvj, hci])
    subst hij
    refine ⟨RemoveTagged
      { elem := Function.update l.ClearTags.elem j { l.ClearTags.elem j with tag := 1 }
        n := l.ClearTags.n
        elemsAllocated := l.ClearTags.elemsAllocated }, ?_, ?_, ?_⟩
    · unfold RemoveById
      simp only [e]
    · rw [(toList_RemoveTagged _).1]
      show List.filter (fun e => decide (e.tag = 0))
        ((List.range l.ClearTags.n).map (Function.update l.ClearTags.elem j
          { l.ClearTags.elem j with tag := 1 })) = _
      rw [← map_range_set, ← ClearTags_toList]
      apply filter_set_eraseIdx
      · simp
      · intro x hx
        change x ∈ l.ClearTags.toList at hx
        rw [ClearTags_toList] at hx
        obtain ⟨e0, _, rfl⟩ := List.mem_map.mp hx
        simp
      · show j < ((List.range l.ClearTags.n).map l.ClearTags.elem).length
        simpa using hj
    · rfl
  · exact absurd ⟨i, hi, hci⟩ hno

theorem DeepCopyInto_elem [Inhabited α] (self l : IdList α) (k : Nat) (hk : k < self.n) :
    (self.DeepCopyInto l).dest.elem k = self.elem k := by
  have key := forLoop_inv (fun i (m : Nat → Item α) => Function.update m i (self.elem i))
    (fun j m => ∀ x, x < j → m x = self.elem x) 0 self.n (fun _ => default)
    (by intro x hx; omega) (by
      intro j m _ _ hm x hx
      show Function.update m j (self.elem j) x = self.elem x
      rw [Function.update_apply]
      by_cases c : x = j
      · rw [if_pos c, c]
      · rw [if_neg c]; exact hm x (by omega))
  exact key k (by omega)

end IdList

/-! ## `RgbaColor`: unpacking then packing -/

namespace RgbaColor

theorem FromPackedInt_bytes (x : Nat) :
    FromPackedInt x = ⟨x % 256, x / 2 ^ 8 % 256, x / 2 ^ 16 % 256, 255 - x / 2 ^ 24 % 256⟩ := by
  unfold FromPackedInt
  simp only [and_0xff, Nat.shiftRight_eq_div_pow]
  exact From_of_bytes _ _ _ _ (by omega) (by omega) (by omega) (by omega)

theorem FromPackedIntBGRA_bytes (x : Nat) :
    FromPackedIntBGRA x
      = ⟨x / 2 ^ 16 % 256, x / 2 ^ 8 % 256, x % 256, 255 - x / 2 ^ 24 % 256⟩ := by
  unfold FromPackedIntBGRA
  simp only [and_0xff, Nat.shiftRight_eq_div_pow]
  exact From_of_bytes _ _ _ _ (by omega) (by omega) (by omega) (by omega)

theorem ToPackedInt_FromPackedInt (x : Nat) (hx : x < 2 ^ 32) :
    (FromPackedInt x).ToPackedInt = x := by
  rw [FromPackedInt_bytes]
  unfold ToPackedInt
  simp only []
  rw [pack_bytes _ _ _ _ (by omega) (by omega) (by omega) (by omega)]
  omega

theorem ToPackedIntBGRA_FromPackedIntBGRA (x : Nat) (hx : x < 2 ^ 32) :
    (FromPackedIntBGRA x).ToPackedIntBGRA = x := by
  rw [FromPackedIntBGRA_bytes]
  unfold ToPackedIntBGRA
  simp only []
  rw [pack_bytes _ _ _ _ (by omega) (by omega) (by omega) (by omega)]
  omega

theorem FromPackedInt_valid (x : Nat) : (FromPackedInt x).Valid := by
  rw [FromPackedInt_bytes]
  unfold Valid
  simp only []
  omega

theorem FromPackedIntBGRA_valid (x : Nat) : (FromPackedIntBGRA x).Valid := by
  rw [FromPackedIntBGRA_bytes]
  unfold Valid
  simp only []
  omega

theorem ToPackedInt_lt (c : RgbaColor) (hc : c.Valid) : c.ToPackedInt < 2 ^ 32 := by
  obtain ⟨h1, h2, h3, h4⟩ := hc
  unfold ToPackedInt
  rw [pack_bytes c.red c.green c.blue (255 - c.alpha) h1 h2 h3 (by omega)]
  omega

theorem ToPackedIntBGRA_lt (c : RgbaColor) (hc : c.Valid) : c.ToPackedIntBGRA < 2 ^ 32 := by
  obtain ⟨h1, h2, h3, h4⟩ := hc
  unfold ToPackedIntBGRA
  rw [pack_bytes c.blue c.green c.red (255 - c.alpha) h3 h2 h1 (by omega)]
  omega

end RgbaColor

/-! ## Concrete checks -/

example : (DscList.ofList [1, 2, 3, 4, 5] 8).Reverse.toList = [5, 4, 3, 2, 1] := by decide

example : (DscList.ofList [(⟨1, 10⟩ : Tagged Nat), ⟨0, 11⟩, ⟨1, 12⟩, ⟨0, 13⟩] 4).RemoveTagged.toList
    = [⟨0, 11⟩, ⟨0, 13⟩] := by decide

example : ((DscList.ofList [1, 2, 3] 3).AddToBeginning 0).toList = [0, 2, 3, 1] := by decide

example : ((IdList.ofList [(⟨⟨1⟩, 0, ()⟩ : Item Unit), ⟨⟨3⟩, 0, ()⟩, ⟨⟨5⟩, 0, ()⟩] 3).Add
    ⟨⟨4⟩, 0, ()⟩).map IdList.handles = .ret [1, 3, 4, 5] := by decide

example : (IdList.ofList [(⟨⟨1⟩, 0, ()⟩ : Item Unit), ⟨⟨3⟩, 0, ()⟩, ⟨⟨5⟩, 0, ()⟩] 3).IndexOf ⟨3⟩
    = .ret 1 := by decide

example : (IdList.ofList [(⟨⟨1⟩, 0, ()⟩ : Item Unit), ⟨⟨3⟩, 0, ()⟩, ⟨⟨5⟩, 0, ()⟩] 3).IndexOf ⟨9⟩
    = .ret (-1) := by decide

example : ((IdList.ofList [(⟨⟨1⟩, 0, ()⟩ : Item Unit), ⟨⟨3⟩, 7, ()⟩, ⟨⟨5⟩, 0, ()⟩] 3).RemoveById
    ⟨1⟩).map IdList.toList = .ret [⟨⟨3⟩, 0, ()⟩, ⟨⟨5⟩, 0, ()⟩] := by decide

example : ((IdList.ofList [(⟨⟨4294967295⟩, 0, ()⟩ : Item Unit)] 1).AddAndAssignId
    ⟨⟨7⟩, 0, ()⟩).map (fun r => (r.handle.v, r.store.handles)) = .ret (0, [0, 4294967295]) := by
  decide

example : RgbaColor.FromPackedInt (RgbaColor.ToPackedInt ⟨1, 2, 3, 4⟩) = ⟨1, 2, 3, 4⟩ := by
  decide

example : (listFull3.Add 40).toList = [10, 20, 30, 40] ∧ (listFull3.Add 40).elemsAllocated = 70 := by
  decide

example : (listFull3.RemoveLast 2).map DscList.toList = .ret [10] := by decide

example : (listFull3.RemoveLast 4).map DscList.toList = .oops .removingTooMany := by decide

example : (listEmpty.RemoveLast (-1)).map (fun l => (l.n, l.elemsAllocated)) = .ret (1, 0) := by
  decide

example : listFull3.traverse = .ret [0, 1, 2] ∧ listEmpty.traverse = .ret [] := by decide

example : ((store135.MoveSelfInto store24).dest.toList = store135.toList) ∧
    (store135.MoveSelfInto store24).self.n = 0 := by decide

example : (store135.DeepCopyInto store24).dest.toList = store135.toList := by decide

example : (RgbaColor.FromPackedInt 0x12345678).ToPackedInt = 0x12345678 := by decide

/-! ## Main theorems -/

/-- C1: on a store whose handle values are strictly increasing, each of `Add`,
`AddAndAssignId`, `ClearTags`, `Tag`, `RemoveTagged` and `RemoveById`, with any argument,
leaves the handle values strictly increasing whenever it returns, and a strictly
increasing store has pairwise distinct handle values; the three operations with a search
loop never run out of loop budget. -/
theorem C1_IdList_operations_keep_sorted {α : Type} [Inhabited α] (l : IdList α)
    (hs : l.Sorted) :
    (∀ t s, l.Add t = .ret s → s.Sorted) ∧
    (∀ t r, l.AddAndAssignId t = .ret r → r.store.Sorted) ∧
    l.ClearTags.Sorted ∧
    (∀ h tag, (l.Tag h tag).Sorted) ∧
    l.RemoveTagged.Sorted ∧
    (∀ h s, l.RemoveById h = .ret s → s.Sorted) ∧
    (∀ s : IdList α, s.Sorted → s.handles.Nodup) ∧
    (∀ t, l.Add t ≠ .outOfFuel) ∧ (∀ t, l.AddAndAssignId t ≠ .outOfFuel) ∧
    (∀ h, l.RemoveById h ≠ .outOfFuel) := by
  refine ⟨?_, ?_, ?_, ?_, ?_, ?_, ?_, ?_, ?_, ?_⟩
  · intro t s e
    exact (IdList.Add_ret l hs t s e).1
  · intro t r e
    exact IdList.AddAndAssignId_sorted l hs t r e
  · exact hs.of_handles_eq (IdList.ClearTags_handles l)
  · intro h tag
    exact hs.of_handles_eq (IdList.Tag_handles l h tag)
  · exact hs.of_sublist (IdList.RemoveTagged_handles l)
  · intro h s e
    rcases IdList.RemoveById_spec l hs h with ⟨_, e2⟩ | ⟨_, s2, e2, hsub⟩
    · rw [e2] at e; cases e
    · rw [e2] at e; cases e
      exact hs.of_sublist hsub
  · intro s h
    rw [IdList.sorted_iff_handles] at h
    exact h.imp (fun hab => Nat.ne_of_lt hab)
  · intro t
    exact IdList.Add_ne_outOfFuel l hs t
  · intro t
    exact IdList.AddAndAssignId_ne_outOfFuel l hs t
  · intro h
    rcases IdList.RemoveById_spec l hs h with ⟨_, e2⟩ | ⟨_, s2, e2, _⟩ <;> rw [e2] <;> simp

/-- C1 at the store holding handles 1, 3, 5. -/
theorem C1_IdList_operations_keep_sorted_witness :
    store135.Sorted ∧ store135.ClearTags.Sorted ∧ store135.RemoveTagged.Sorted ∧
      (∀ h s, store135.RemoveById h = .ret s → s.Sorted) :=
  ⟨by decide, (C1_IdList_operations_keep_sorted store135 (by decide)).2.2.1,
    (C1_IdList_operations_keep_sorted store135 (by decide)).2.2.2.2.1,
    (C1_IdList_operations_keep_sorted store135 (by decide)).2.2.2.2.2.1⟩

/-- C2: on a store whose handle values are strictly increasing, `IndexOf(h)` returns the
index of the element with handle value `h.v` when there is one and -1 when there is none,
`FindByIdNoOops(h)` returns the pointer to that same slot or `NULL`, and both always
return. -/
theorem C2_IdList_IndexOf_FindByIdNoOops {α : Type} (l : IdList α) (hs : l.Sorted)
    (h : Handle) :
    (∀ i, i < l.n → (l.elem i).h.v = h.v →
      l.IndexOf h = .ret (i : Int) ∧ l.FindByIdNoOops h = .ret (some i)) ∧
    (¬ l.Mem h.v → l.IndexOf h = .ret (-1) ∧ l.FindByIdNoOops h = .ret none) := by
  exact ⟨fun i hi hv => IdList.lookup_found l hs h i hi hv,
    fun hno => IdList.lookup_absent l hs h hno⟩

/-- C2 at the store holding handles 1, 3, 5, looked up with handle 5. -/
theorem C2_IdList_IndexOf_FindByIdNoOops_witness :
    store135.Sorted ∧
    (store135.IndexOf ⟨5⟩ = .ret 2 ∧ store135.FindByIdNoOops ⟨5⟩ = .ret (some 2)) :=
  ⟨by decide,
    (C2_IdList_IndexOf_FindByIdNoOops store135 (by decide) ⟨5⟩).1 2 (by decide) (by decide)⟩

/-- C3: inserting items with pairwise distinct handle values one after another with `Add`
into the empty store trips no assertion and leaves exactly those items, payload
included, in ascending handle order; inserting handles 5, 1, 3 yields the stored order
1, 3, 5, after which `IndexOf` of handle 3 returns 1 and of handle 9 returns -1. -/
theorem C3_IdList_Add_sorts_distinct_items {α : Type} [Inhabited α] (items : List (Item α))
    (hd : (items.map (fun e => e.h.v)).Nodup) :
    (∃ s, IdList.AddAll items IdList.empty = .ret s ∧ s.toList.Perm items ∧ s.Sorted ∧
      s.n = items.length) ∧
    (∀ (t5 t1 t3 : Int) (p5 p1 p3 : α),
      ∃ s, IdList.AddAll [⟨⟨5⟩, t5, p5⟩, ⟨⟨1⟩, t1, p1⟩, ⟨⟨3⟩, t3, p3⟩] IdList.empty = .ret s ∧
        s.toList = [⟨⟨1⟩, t1, p1⟩, ⟨⟨3⟩, t3, p3⟩, ⟨⟨5⟩, t5, p5⟩] ∧
        s.IndexOf ⟨3⟩ = .ret 1 ∧ s.IndexOf ⟨9⟩ = .ret (-1)) := by
  constructor
  · obtain ⟨s, e, hs, hp, hn⟩ := IdList.AddAll_spec items IdList.empty IdList.empty_sorted
      (by simpa [IdList.handles, IdList.toList, IdList.empty] using hd)
    refine ⟨s, e, ?_, hs, ?_⟩
    · simpa [IdList.toList, IdList.empty] using hp
    · simpa [IdList.empty] using hn
  · intro t5 t1 t3 p5 p1 p3
    obtain ⟨s, e, hs, _, hn⟩ := IdList.AddAll_spec
      [⟨⟨5⟩, t5, p5⟩, ⟨⟨1⟩, t1, p1⟩, ⟨⟨3⟩, t3, p3⟩] IdList.empty IdList.empty_sorted
      (by simp [IdList.handles, IdList.toList, IdList.empty])
    have hl : (IdList.AddAll [⟨⟨5⟩, t5, p5⟩, ⟨⟨1⟩, t1, p1⟩, ⟨⟨3⟩, t3, p3⟩]
        IdList.empty).map IdList.toList
        = .ret [⟨⟨1⟩, t1, p1⟩, ⟨⟨3⟩, t3, p3⟩, ⟨⟨5⟩, t5, p5⟩] := by
      simp [IdList.AddAll, IdList.Add, IdList.grow, IdList.empty, IdList.AddLoop, forLoop,
        move_backward, Outcome.map, IdList.toList, List.range, List.range.loop,
        Function.update]
    rw [e] at hl
    simp only [Outcome.map, Outcome.ret.injEq] at hl
    have hn3 : s.n = 3 := by simpa [IdList.empty] using hn
    have hel := hl
    unfold IdList.toList at hel
    rw [hn3] at hel
    simp only [List.range, List.range.loop, List.map_cons, List.map_nil, List.cons.injEq,
      and_true] at hel
    obtain ⟨h0, h1, h2⟩ := hel
    refine ⟨s, e, hl, ?_, ?_⟩
    · exact (IdList.lookup_found s hs ⟨3⟩ 1 (by omega) (by rw [h1])).1
    · refine (IdList.lookup_absent s hs ⟨9⟩ ?_).1
      rintro ⟨k, hk, ek⟩
      rw [hn3] at hk
      have hk3 : k = 0 ∨ k = 1 ∨ k = 2 := by omega
      rcases hk3 with c | c | c <;> subst c
      · rw [h0] at ek; cases ek
      · rw [h1] at ek; cases ek
      · rw [h2] at ek; cases ek

/-- C3 at the items with handles 5, 1, 3. -/
theorem C3_IdList_Add_sorts_distinct_items_witness :
    ([(⟨⟨5⟩, 0, ()⟩ : Item Unit), ⟨⟨1⟩, 0, ()⟩, ⟨⟨3⟩, 0, ()⟩].map (fun e => e.h.v)).Nodup ∧
    ∃ s, IdList.AddAll [(⟨⟨5⟩, 0, ()⟩ : Item Unit), ⟨⟨1⟩, 0, ()⟩, ⟨⟨3⟩, 0, ()⟩] IdList.empty
        = .ret s ∧
      s.toList.Perm [⟨⟨5⟩, 0, ()⟩, ⟨⟨1⟩, 0, ()⟩, ⟨⟨3⟩, 0, ()⟩] ∧ s.Sorted ∧ s.n = 3 :=
  ⟨by decide, (C3_IdList_Add_sorts_distinct_items
    [(⟨⟨5⟩, 0, ()⟩ : Item Unit), ⟨⟨1⟩, 0, ()⟩, ⟨⟨3⟩, 0, ()⟩] (by decide)).1⟩

/-- C4: on a store whose handle values are strictly increasing, `Add(t)` trips the
"Handle isn't unique" assertion if and only if some stored element has the handle value
of `t`; when none has, `Add` returns and the store holds `n + 1` elements. -/
theorem C4_IdList_Add_asserts_iff_duplicate {α : Type} [Inhabited α] (l : IdList α)
    (hs : l.Sorted) (t : Item α) :
    (l.Add t = .oops .handleNotUnique ↔ l.Mem t.h.v) ∧
    (¬ l.Mem t.h.v → ∃ s, l.Add t = .ret s ∧ s.n = l.n + 1) := by
  rcases IdList.Add_spec l hs t with ⟨hm, e⟩ | ⟨hno, s, i, e, _, hn, _⟩
  · exact ⟨⟨fun _ => hm, fun _ => e⟩, fun hno => absurd hm hno⟩
  · refine ⟨⟨fun e2 => ?_, fun hm => absurd hm hno⟩, fun _ => ⟨s, e, hn⟩⟩
    rw [e] at e2
    cases e2

/-- C4 at the store holding handles 1, 3, 5 and an item with handle 3. -/
theorem C4_IdList_Add_asserts_iff_duplicate_witness :
    store135.Sorted ∧ store135.Add ⟨⟨3⟩, 0, ()⟩ = .oops .handleNotUnique :=
  ⟨by decide,
    (C4_IdList_Add_asserts_iff_duplicate store135 (by decide) ⟨⟨3⟩, 0, ()⟩).1.mpr (by decide)⟩

/-- C5, as amended: on a store whose handle values are strictly increasing and all below
`0xFFFFFFFF`, `AddAndAssignId(item)` returns; the handle it assigns to the item and
returns is the maximum stored handle value plus 1, or 1 when the store is empty; it is
strictly greater than every handle value stored before the call; afterwards the store
holds the earlier elements followed by the item under that handle. -/
theorem C5_IdList_AddAndAssignId_below_max {α : Type} [Inhabited α] (l : IdList α)
    (hs : l.Sorted) (hb : ∀ k, k < l.n → (l.elem k).h.v < UINT32_MOD - 1) (t : Item α) :
    ∃ r, l.AddAndAssignId t = .ret r ∧
      r.handle.v = l.MaximumId + 1 ∧
      (∀ k, k < l.n → (l.elem k).h.v ≤ l.MaximumId) ∧
      (0 < l.n → ∃ k, k < l.n ∧ (l.elem k).h.v = l.MaximumId) ∧
      (l.n = 0 → r.handle.v = 1) ∧
      r.item = { t with h := r.handle } ∧
      (∀ k, k < l.n → (l.elem k).h.v < r.handle.v) ∧
      r.store.toList = l.toList ++ [r.item] ∧ r.store.n = l.n + 1 := by
  obtain ⟨hle, h0, hex⟩ := IdList.MaximumId_spec l
  have hmax : l.MaximumId + 1 < UINT32_MOD := by
    rcases Nat.eq_zero_or_pos l.n with c | c
    · rw [h0 c]; decide
    · obtain ⟨k, hk, e⟩ := hex c
      have := hb k hk
      have h32 : UINT32_MOD = 4294967296 := by decide
      omega
  obtain ⟨r, e, hv, hitem, _, hn, hlist, hgt⟩ := IdList.AddAndAssignId_spec l hs t hmax
  exact ⟨r, e, hv, hle, hex, fun c => by rw [hv, h0 c], hitem, hgt, hlist, hn⟩

/-- C5, as amended, at the store holding handles 1, 3, 5. -/
theorem C5_IdList_AddAndAssignId_below_max_witness :
    store135.Sorted ∧ (∀ k, k < store135.n → (store135.elem k).h.v < UINT32_MOD - 1) ∧
    ∃ r, store135.AddAndAssignId item7 = .ret r ∧ r.handle.v = store135.MaximumId + 1 :=
  ⟨by decide, by decide,
    (C5_IdList_AddAndAssignId_below_max store135 (by decide) (by decide) item7).imp
      (fun _ h => ⟨h.1, h.2.1⟩)⟩

/-- C5 fails as stated: on the sorted store holding the single handle `0xFFFFFFFF`,
`MaximumId() + 1` wraps around to 0, so `AddAndAssignId` assigns and returns the handle 0,
which is neither the maximum plus 1 nor greater than the stored handle; the item is
inserted in front of the old element. -/
theorem C5_AddAndAssignId_wraps_at_max :
    storeMax.Sorted ∧
    (storeMax.AddAndAssignId item7).map (fun r => (r.handle.v, r.item.h.v, r.store.handles))
      = .ret (0, 0, [0, 4294967295]) ∧
    storeMax.MaximumId + 1 = 4294967296 ∧
    ¬ (∀ k, k < storeMax.n → (storeMax.elem k).h.v < 0) := by
  decide

/-- C6 fails as stated: in the run from the empty store that adds an item, removes it by
its handle 1 and adds an item again, both `AddAndAssignId` calls return the handle 1. -/
theorem C6_handle_reused_after_removal :
    (IdList.run runAddRemoveAdd IdList.RunState.init).map (fun st => st.returned)
      = .ret [⟨1⟩, ⟨1⟩] := by
  decide

/-- C6, as amended: after any run from the empty store made of `AddAndAssignId`,
`RemoveById` and `RemoveTagged` calls that has returned, if fewer than `2^32 - 1` handles
have been assigned so far then a further `AddAndAssignId` returns a handle strictly
greater than every handle value stored at that moment, hence greater than every handle
returned earlier in the run whose element is still stored. -/
theorem C6_IdList_AddAndAssignId_exceeds_stored {α : Type} [Inhabited α]
    (steps : List (IdList.Step α)) (st : IdList.RunState α) (t : Item α)
    (hrun : IdList.run steps IdList.RunState.init = .ret st)
    (hcount : st.returned.length + 1 < UINT32_MOD) :
    ∃ r, st.store.AddAndAssignId t = .ret r ∧
      IdList.run (steps ++ [.addAndAssignId t]) IdList.RunState.init
        = .ret { store := r.store, returned := r.handle :: st.returned } ∧
      (∀ k, k < st.store.n → (st.store.elem k).h.v < r.handle.v) ∧
      (∀ h, h ∈ st.returned → st.store.Mem h.v → h.v < r.handle.v) := by
  obtain ⟨hs, hb⟩ := IdList.run_inv steps IdList.RunState.init st IdList.empty_sorted
    (by intro v hv; simp [IdList.RunState.init, IdList.handles, IdList.toList, IdList.empty] at hv)
    hrun (by omega)
  have hM : st.store.MaximumId ≤ st.returned.length := by
    obtain ⟨_, h0, h1⟩ := IdList.MaximumId_spec st.store
    rcases Nat.eq_zero_or_pos st.store.n with c | c
    · rw [h0 c]; omega
    · obtain ⟨k, hk, ek⟩ := h1 c
      rw [← ek]
      exact hb _ (IdList.elem_mem_handles _ k hk)
  obtain ⟨r, e, _, _, _, _, _, hgt⟩ := IdList.AddAndAssignId_spec st.store hs t (by omega)
  refine ⟨r, e, ?_, hgt, ?_⟩
  · rw [IdList.run_snoc steps _ _ st hrun, IdList.step]
    simp only [e]
  · rintro h _ ⟨k, hk, ek⟩
    rw [← ek]
    exact hgt k hk

/-- C6, as amended, after the run that adds two items and removes the first. -/
theorem C6_IdList_AddAndAssignId_exceeds_stored_witness :
    IdList.run runAddAddRemove IdList.RunState.init
      = .ret ((IdList.run runAddAddRemove IdList.RunState.init).getD IdList.RunState.init) ∧
    ((IdList.run runAddAddRemove IdList.RunState.init).getD
      IdList.RunState.init).returned.length + 1 < UINT32_MOD ∧
    ∃ r, ((IdList.run runAddAddRemove IdList.RunState.init).getD
        IdList.RunState.init).store.AddAndAssignId item7 = .ret r ∧
      ∀ k, k < ((IdList.run runAddAddRemove IdList.RunState.init).getD
          IdList.RunState.init).store.n →
        (((IdList.run runAddAddRemove IdList.RunState.init).getD
          IdList.RunState.init).store.elem k).h.v < r.handle.v :=
  ⟨by rfl, by decide,
    (C6_IdList_AddAndAssignId_exceeds_stored runAddAddRemove
      ((IdList.run runAddAddRemove IdList.RunState.init).getD IdList.RunState.init) item7
      (by rfl) (by decide)).imp (fun _ h => ⟨h.1, h.2.2.1⟩)⟩

/-- C7: `List::RemoveTagged` leaves exactly the elements whose tag is 0, in their original
order, sets `n` to their number and leaves `elemsAllocated` unchanged; the sequence
`[a,b,c,d]` with tags `[1,0,1,0]` becomes `[b,d]`. -/
theorem C7_List_RemoveTagged_is_filter {α : Type} [Inhabited α] (l : DscList (Tagged α)) :
    l.RemoveTagged.toList = l.toList.filter (fun e => decide (e.tag = 0)) ∧
    l.RemoveTagged.n = (l.toList.filter (fun e => decide (e.tag = 0))).length ∧
    l.RemoveTagged.elemsAllocated = l.elemsAllocated ∧
    (∀ (a b c d : α) (cap : Nat),
      (DscList.ofList [⟨1, a⟩, ⟨0, b⟩, ⟨1, c⟩, ⟨0, d⟩] cap).RemoveTagged.toList = [⟨0, b⟩, ⟨0, d⟩] ∧
      (DscList.ofList [⟨1, a⟩, ⟨0, b⟩, ⟨1, c⟩, ⟨0, d⟩] cap).RemoveTagged.elemsAllocated = cap) := by
  refine ⟨(DscList.RemoveTagged_toList l).1, ?_, rfl, ?_⟩
  · rw [← (DscList.RemoveTagged_toList l).1]
    simp [DscList.toList]
  · intro a b c d cap
    refine ⟨?_, rfl⟩
    rw [(DscList.RemoveTagged_toList _).1, DscList.ofList_toList]
    simp

/-- C8: applying `List::Reverse` twice yields the original element sequence, with `n` and
`elemsAllocated` unchanged. -/
theorem C8_List_Reverse_twice {T : Type} (l : DscList T) :
    l.Reverse.Reverse.toList = l.toList ∧
    l.Reverse.Reverse.n = l.n ∧
    l.Reverse.Reverse.elemsAllocated = l.elemsAllocated := by
  refine ⟨?_, rfl, rfl⟩
  rw [DscList.Reverse_toList, DscList.Reverse_toList, List.reverse_reverse]

/-- C9: for every colour with four byte channels, unpacking the packed value gives back a
colour that `Equals` the original, for the RGBA and for the BGRA packing, and the packed
value is a 32-bit unsigned integer. -/
theorem C9_RgbaColor_pack_roundtrip (c : RgbaColor) (hc : c.Valid) :
    (RgbaColor.FromPackedInt c.ToPackedInt).Equals c = true ∧
    (RgbaColor.FromPackedIntBGRA c.ToPackedIntBGRA).Equals c = true ∧
    c.ToPackedInt < 2 ^ 32 ∧ c.ToPackedIntBGRA < 2 ^ 32 := by
  refine ⟨?_, ?_, ?_, ?_⟩
  · rw [RgbaColor.FromPackedInt_ToPackedInt c hc]; exact RgbaColor.Equals_self c
  · rw [RgbaColor.FromPackedIntBGRA_ToPackedIntBGRA c hc]; exact RgbaColor.Equals_self c
  · obtain ⟨h1, h2, h3, h4⟩ := hc
    unfold RgbaColor.ToPackedInt
    rw [pack_bytes c.red c.green c.blue (255 - c.alpha) h1 h2 h3 (by omega)]
    omega
  · obtain ⟨h1, h2, h3, h4⟩ := hc
    unfold RgbaColor.ToPackedIntBGRA
    rw [pack_bytes c.blue c.green c.red (255 - c.alpha) h3 h2 h1 (by omega)]
    omega

/-- C9 at the colour (18, 52, 86, 120). -/
theorem C9_RgbaColor_pack_roundtrip_witness :
    (⟨18, 52, 86, 120⟩ : RgbaColor).Valid ∧
    ((RgbaColor.FromPackedInt (⟨18, 52, 86, 120⟩ : RgbaColor).ToPackedInt).Equals
        ⟨18, 52, 86, 120⟩ = true ∧
      (RgbaColor.FromPackedIntBGRA (⟨18, 52, 86, 120⟩ : RgbaColor).ToPackedIntBGRA).Equals
        ⟨18, 52, 86, 120⟩ = true ∧
      (⟨18, 52, 86, 120⟩ : RgbaColor).ToPackedInt < 2 ^ 32 ∧
      (⟨18, 52, 86, 120⟩ : RgbaColor).ToPackedIntBGRA < 2 ^ 32) :=
  ⟨by decide, C9_RgbaColor_pack_roundtrip ⟨18, 52, 86, 120⟩ (by decide)⟩

/-- C10: on the two-element list `[10, 20]`, `List::AddToBeginning(5)` leaves `[5, 20, 10]`:
only the old first element is moved, to the new last slot, and the element in between
keeps its index, so the result is not `[5, 10, 20]`. -/
theorem C10_List_AddToBeginning_moves_only_first :
    ((DscList.ofList [10, 20] 2).AddToBeginning 5).toList = [5, 20, 10] ∧
    ((DscList.ofList [10, 20] 2).AddToBeginning 5).toList ≠ 5 :: (DscList.ofList [10, 20] 2).toList ∧
    ((DscList.ofList [10, 20] 8).AddToBeginning 5).toList = [5, 20, 10] := by
  decide

/-- C11: on a list with `0 <= n <= elemsAllocated`, `List::Add(t)` leaves the old sequence
followed by `t`, every earlier element at its earlier index and `n` increased by one;
`elemsAllocated` becomes `(elemsAllocated + 32) * 2` when the list was full and is
unchanged otherwise. -/
theorem C11_List_Add_appends {T : Type} [Inhabited T] (l : DscList T)
    (h : l.WithinCapacity) (t : T) :
    (l.Add t).toList = l.toList ++ [t] ∧
    (∀ k, k < l.n → (l.Add t).elem k = l.elem k) ∧
    (l.Add t).elem l.n = t ∧
    (l.Add t).n = l.n + 1 ∧
    (l.n = l.elemsAllocated → (l.Add t).elemsAllocated = (l.elemsAllocated + 32) * 2) ∧
    (l.n ≠ l.elemsAllocated → (l.Add t).elemsAllocated = l.elemsAllocated) := by
  unfold DscList.WithinCapacity at h
  refine ⟨DscList.Add_toList l t, fun k hk => DscList.Add_elem_old l t k hk,
    DscList.Add_elem_new l t, DscList.Add_n l t, ?_, ?_⟩
  · intro e
    show l.AllocForOneMore.elemsAllocated = _
    rw [DscList.AllocForOneMore_elemsAllocated, if_pos (by omega)]
  · intro e
    show l.AllocForOneMore.elemsAllocated = _
    rw [DscList.AllocForOneMore_elemsAllocated, if_neg (by omega)]

/-- C11 at the full list `[10, 20, 30]` of capacity 3. -/
theorem C11_List_Add_appends_witness :
    listFull3.WithinCapacity ∧ (listFull3.Add 40).toList = listFull3.toList ++ [40] ∧
      (listFull3.Add 40).n = listFull3.n + 1 :=
  ⟨by decide, (C11_List_Add_appends listFull3 (by decide) 40).1,
    (C11_List_Add_appends listFull3 (by decide) 40).2.2.2.1⟩

/-- C12: for a count `>= 0`, `List::RemoveLast(count)` trips its assertion if and only if
`count > n`; when `count <= n` it returns, leaving exactly the first `n - count` elements
in their order and `elemsAllocated` unchanged. -/
theorem C12_List_RemoveLast {T : Type} (l : DscList T) (cnt : Int) (h : 0 ≤ cnt) :
    (l.RemoveLast cnt = .oops .removingTooMany ↔ (l.n : Int) < cnt) ∧
    (cnt ≤ (l.n : Int) → ∃ s, l.RemoveLast cnt = .ret s ∧
      s.toList = l.toList.take (l.n - cnt.toNat) ∧
      (s.n : Int) = (l.n : Int) - cnt ∧
      (∀ k, k < s.n → s.elem k = l.elem k) ∧
      s.elemsAllocated = l.elemsAllocated) := by
  constructor
  · unfold DscList.RemoveLast
    by_cases c : (l.n : Int) ≥ cnt
    · rw [if_pos c]
      constructor
      · intro e; cases e
      · intro e; omega
    · rw [if_neg c]
      exact ⟨fun _ => (by omega), fun _ => rfl⟩
  · intro c
    refine ⟨{ elem := l.elem, n := ((l.n : Int) - cnt).toNat,
              elemsAllocated := l.elemsAllocated }, ?_, ?_, ?_, fun _ _ => rfl, rfl⟩
    · unfold DscList.RemoveLast
      rw [if_pos c]
    · have e : ((l.n : Int) - cnt).toNat = l.n - cnt.toNat := by omega
      show (List.range ((l.n : Int) - cnt).toNat).map l.elem = _
      rw [e]
      exact map_range_take l.n _ l.elem (by omega)
    · show ((((l.n : Int) - cnt).toNat : Nat) : Int) = _
      omega

/-- C12 at the list `[10, 20, 30]` and the count 2. -/
theorem C12_List_RemoveLast_witness :
    (0 : Int) ≤ 2 ∧ ∃ s, listFull3.RemoveLast 2 = .ret s ∧
      s.toList = listFull3.toList.take (listFull3.n - (2 : Int).toNat) ∧
      (s.n : Int) = (listFull3.n : Int) - 2 ∧
      (∀ k, k < s.n → s.elem k = listFull3.elem k) ∧
      s.elemsAllocated = listFull3.elemsAllocated :=
  ⟨by decide, (C12_List_RemoveLast listFull3 2 (by decide)).2 (by decide)⟩

/-- C13, as amended: on a list with `0 <= n <= elemsAllocated`, each of `Add`,
`AddToBeginning`, `ClearTags`, `RemoveTagged`, `RemoveLast` with a count `>= 0` (when its
assertion does not trip), `Reverse` and `Clear` leaves a list with
`0 <= n <= elemsAllocated`. -/
theorem C13_List_operations_within_capacity {α : Type} [Inhabited α]
    (l : DscList (Tagged α)) (h : l.WithinCapacity) :
    (∀ t, (l.Add t).WithinCapacity) ∧
    (∀ t, (l.AddToBeginning t).WithinCapacity) ∧
    l.ClearTags.WithinCapacity ∧
    l.RemoveTagged.WithinCapacity ∧
    (∀ cnt s, 0 ≤ cnt → l.RemoveLast cnt = .ret s → s.WithinCapacity) ∧
    l.Reverse.WithinCapacity ∧
    l.Clear.WithinCapacity := by
  refine ⟨?_, ?_, h, ?_, ?_, h, Nat.le_refl 0⟩
  · intro t
    exact DscList.AllocForOneMore_room l h
  · intro t
    exact DscList.AllocForOneMore_room l h
  · exact Nat.le_trans (DscList.RemoveTagged_n_le l) h
  · intro cnt s hc e
    unfold DscList.RemoveLast at e
    by_cases c : (l.n : Int) ≥ cnt
    · rw [if_pos c] at e
      cases e
      unfold DscList.WithinCapacity at h ⊢
      show ((l.n : Int) - cnt).toNat ≤ l.elemsAllocated
      omega
    · rw [if_neg c] at e
      cases e

/-- C13, as amended, at the full list `[10, 20, 30]` with tags 0. -/
theorem C13_List_operations_within_capacity_witness :
    (DscList.ofList [(⟨0, 10⟩ : Tagged Nat), ⟨0, 20⟩, ⟨0, 30⟩] 3).WithinCapacity ∧
    (∀ t, ((DscList.ofList [(⟨0, 10⟩ : Tagged Nat), ⟨0, 20⟩, ⟨0, 30⟩] 3).Add t).WithinCapacity) ∧
    (DscList.ofList [(⟨0, 10⟩ : Tagged Nat), ⟨0, 20⟩, ⟨0, 30⟩] 3).RemoveTagged.WithinCapacity :=
  ⟨by decide,
    (C13_List_operations_within_capacity
      (DscList.ofList [(⟨0, 10⟩ : Tagged Nat), ⟨0, 20⟩, ⟨0, 30⟩] 3) (by decide)).1,
    (C13_List_operations_within_capacity
      (DscList.ofList [(⟨0, 10⟩ : Tagged Nat), ⟨0, 20⟩, ⟨0, 30⟩] 3) (by decide)).2.2.2.1⟩

/-- C13 fails as stated: on the empty list (`n = 0`, `elemsAllocated = 0`) the call
`RemoveLast(-1)` passes the assertion `n >= cnt`, runs no destructor and sets `n` to 1,
above `elemsAllocated`. -/
theorem C13_RemoveLast_negative_count_grows_n :
    listEmpty.WithinCapacity ∧
    (listEmpty.RemoveLast (-1)).map (fun s => (s.n, s.elemsAllocated, decide s.WithinCapacity))
      = .ret (1, 0, false) := by
  decide

/-- C14: on a store whose handle values are strictly increasing, if an element with handle
`h` is stored then `RemoveById(h)` returns, having removed exactly that element; every
other element is kept in its previous relative order whatever its tag was, every
surviving tag is 0, and `elemsAllocated` is unchanged; if no element with handle `h` is
stored, `RemoveById(h)` trips the "Cannot find handle" assertion. -/
theorem C14_IdList_RemoveById_removes_exactly {α : Type} (l : IdList α) (hs : l.Sorted)
    (h : Handle) :
    (∀ i, i < l.n → (l.elem i).h.v = h.v → ∃ s, l.RemoveById h = .ret s ∧
      s.toList = (l.toList.map (fun e => { e with tag := 0 })).eraseIdx i ∧
      s.n + 1 = l.n ∧ s.elemsAllocated = l.elemsAllocated ∧
      (∀ e, e ∈ s.toList → e.tag = 0) ∧ ¬ s.Mem h.v) ∧
    (¬ l.Mem h.v → l.RemoveById h = .oops .cannotFindHandle) := by
  constructor
  · intro i hi hv
    obtain ⟨s, e, hl, hcap⟩ := IdList.RemoveById_found l hs h i hi hv
    have hmem : ∀ x, x ∈ s.toList → ∃ m, m < l.n ∧ m ≠ i ∧
        x = { l.elem m with tag := 0 } := by
      intro x hx
      rw [hl, List.mem_eraseIdx_iff_getElem] at hx
      obtain ⟨m, hm, hne, hxm⟩ := hx
      have hm2 : m < l.n := by simpa [IdList.toList] using hm
      refine ⟨m, hm2, hne, ?_⟩
      rw [← hxm]
      simp [IdList.toList]
    refine ⟨s, e, hl, ?_, hcap, ?_, ?_⟩
    · have h1 := congrArg List.length hl
      rw [IdList.toList_length, List.length_eraseIdx, List.length_map, IdList.toList_length,
        if_pos hi] at h1
      omega
    · intro x hx
      obtain ⟨m, _, _, rfl⟩ := hmem x hx
      rfl
    · rintro ⟨k, hk, ek⟩
      obtain ⟨m, hm, hne, hxm⟩ := hmem _ (IdList.elem_mem_toList s k hk)
      rw [hxm] at ek
      exact hne (hs.slot_unique hm hi (by rw [hv]; exact ek))
  · intro hno
    rcases IdList.RemoveById_spec l hs h with ⟨_, e⟩ | ⟨hm, _⟩
    · exact e
    · exact absurd hm hno

/-- C14 at the store holding handles 1, 3, 5 (the element with handle 3 tagged), removing
handle 1. -/
theorem C14_IdList_RemoveById_removes_exactly_witness :
    store135.Sorted ∧ ∃ s, store135.RemoveById ⟨1⟩ = .ret s ∧
      s.toList = (store135.toList.map (fun e => { e with tag := 0 })).eraseIdx 0 ∧
      s.n + 1 = store135.n ∧ s.elemsAllocated = store135.elemsAllocated ∧
      (∀ e, e ∈ s.toList → e.tag = 0) ∧ ¬ s.Mem (⟨1⟩ : Handle).v :=
  ⟨by decide, (C14_IdList_RemoveById_removes_exactly store135 (by decide) ⟨1⟩).1 0
    (by decide) (by decide)⟩

/-- C15: on a store whose handle values are strictly increasing, `FindById(h)` trips the
"Cannot find handle" assertion if and only if no stored element has handle value `h.v`;
otherwise it returns the slot of the stored element with that handle value, the slot
`FindByIdNoOops(h)` returns. -/
theorem C15_IdList_FindById_asserts_iff_absent {α : Type} (l : IdList α) (hs : l.Sorted)
    (h : Handle) :
    (l.FindById h = .oops .cannotFindHandle ↔ ¬ l.Mem h.v) ∧
    (∀ i, i < l.n → (l.elem i).h.v = h.v →
      l.FindById h = .ret i ∧ l.FindByIdNoOops h = .ret (some i)) := by
  constructor
  · rcases IdList.FindById_spec l hs h with ⟨i, hi, hv, e⟩ | ⟨hno, e⟩
    · rw [e]
      exact ⟨fun e2 => (by cases e2), fun hno => absurd ⟨i, hi, hv⟩ hno⟩
    · exact ⟨fun _ => hno, fun _ => e⟩
  · intro i hi hv
    refine ⟨?_, (IdList.lookup_found l hs h i hi hv).2⟩
    rcases IdList.FindById_spec l hs h with ⟨j, hj, hvj, e⟩ | ⟨hno, _⟩
    · rw [e, hs.slot_unique hi hj (by rw [hv, hvj])]
    · exact absurd ⟨i, hi, hv⟩ hno

/-- C15 at the store holding handles 1, 3, 5, looked up with the absent handle 4. -/
theorem C15_IdList_FindById_asserts_iff_absent_witness :
    store135.Sorted ∧ store135.FindById ⟨4⟩ = .oops .cannotFindHandle :=
  ⟨by decide,
    (C15_IdList_FindById_asserts_iff_absent store135 (by decide) ⟨4⟩).1.mpr (by decide)⟩

/-- C16: after `src.MoveSelfInto(dest)` the element sequence, `n` and `elemsAllocated` of
`dest` are those `src` had before the call (its buffer is the buffer of `src`), whatever
`dest` held before, and `src` is in the empty state: `n = 0`, `elemsAllocated = 0`, no
buffer. -/
theorem C16_IdList_MoveSelfInto {α : Type} [Inhabited α] (src dest : IdList α) :
    (src.MoveSelfInto dest).dest.toList = src.toList ∧
    (src.MoveSelfInto dest).dest.n = src.n ∧
    (src.MoveSelfInto dest).dest.elemsAllocated = src.elemsAllocated ∧
    (src.MoveSelfInto dest).dest.elem = src.elem ∧
    (src.MoveSelfInto dest).self.n = 0 ∧
    (src.MoveSelfInto dest).self.elemsAllocated = 0 ∧
    (src.MoveSelfInto dest).self.toList = [] ∧
    (src.MoveSelfInto dest).self = IdList.empty :=
  ⟨rfl, rfl, rfl, rfl, rfl, rfl, rfl, rfl⟩

/-- C17: after `src.DeepCopyInto(dest)` the element sequence of `dest` equals that of `src`
element by element, `dest.n = src.n` and `dest.elemsAllocated = src.elemsAllocated`,
whatever `dest` held before, and `src` is unchanged. -/
theorem C17_IdList_DeepCopyInto {α : Type} [Inhabited α] (src dest : IdList α) :
    (src.DeepCopyInto dest).dest.toList = src.toList ∧
    (∀ k, k < src.n → (src.DeepCopyInto dest).dest.elem k = src.elem k) ∧
    (src.DeepCopyInto dest).dest.n = src.n ∧
    (src.DeepCopyInto dest).dest.elemsAllocated = src.elemsAllocated ∧
    (src.DeepCopyInto dest).self = src := by
  refine ⟨?_, fun k hk => IdList.DeepCopyInto_elem src dest k hk, rfl, rfl, rfl⟩
  show (List.range src.n).map (src.DeepCopyInto dest).dest.elem = (List.range src.n).map src.elem
  exact map_range_congr src.n _ _ (fun k hk => IdList.DeepCopyInto_elem src dest k hk)

/-- C18: with a cursor as an optional index, `First()` is `NULL` exactly when `n = 0` and
otherwise addresses index 0; `NextAfter(NULL)` is `NULL`; at an index `i < n`, `NextAfter`
is `NULL` when `i = n - 1` and addresses `i + 1` otherwise; the traversal from `First()`
by `NextAfter` visits 0, 1, ..., n-1 in that order and stops. -/
theorem C18_List_First_NextAfter_traversal {T : Type} (l : DscList T) :
    (l.First = none ↔ l.n = 0) ∧
    (l.n ≠ 0 → l.First = some 0) ∧
    l.NextAfter none = none ∧
    (∀ i, i < l.n → (i + 1 = l.n → l.NextAfter (some i) = none) ∧
      (i + 1 ≠ l.n → l.NextAfter (some i) = some (i + 1))) ∧
    l.traverse = .ret (List.range l.n) := by
  refine ⟨?_, ?_, rfl, ?_, DscList.traverse_eq l⟩
  · unfold DscList.First
    by_cases c : l.n = 0
    · rw [if_pos c]; exact ⟨fun _ => c, fun _ => rfl⟩
    · rw [if_neg c]; exact ⟨fun e => (by cases e), fun e => absurd e c⟩
  · intro c
    unfold DscList.First
    rw [if_neg c]
  · intro i hi
    unfold DscList.NextAfter
    constructor
    · intro e
      simp only []
      rw [if_pos (by omega)]
    · intro e
      simp only []
      rw [if_neg (by omega)]

/-- C19: `List::Reverse` leaves the sequence reversed: the element at index `i` is the one
that was at index `n - 1 - i`, for every `i < n`; for odd `n` the middle element stays in
place; `n` and `elemsAllocated` are unchanged. -/
theorem C19_List_Reverse_reverses {T : Type} (l : DscList T) :
    l.Reverse.toList = l.toList.reverse ∧
    (∀ i, i < l.n → l.Reverse.elem i = l.elem (l.n - 1 - i)) ∧
    (∀ m, l.n = 2 * m + 1 → l.Reverse.elem m = l.elem m) ∧
    l.Reverse.n = l.n ∧ l.Reverse.elemsAllocated = l.elemsAllocated := by
  refine ⟨DscList.Reverse_toList l, fun i hi => reverse_loop_spec l.elem l.n i hi, ?_, rfl, rfl⟩
  intro m hm
  have := reverse_loop_spec l.elem l.n m (by omega)
  rw [show l.n - 1 - m = m from by omega] at this
  exact this

/-- C20: for every 32-bit unsigned integer `x`, `FromPackedInt(x).ToPackedInt() = x` and
`FromPackedIntBGRA(x).ToPackedIntBGRA() = x`, the unpacked colours having byte channels;
packed values of byte colours are 32-bit, and no two byte colours share a packed value,
so each packing is a bijection between colours and 32-bit integers. -/
theorem C20_RgbaColor_unpack_pack_roundtrip (x : Nat) (hx : x < 2 ^ 32) :
    (RgbaColor.FromPackedInt x).ToPackedInt = x ∧
    (RgbaColor.FromPackedIntBGRA x).ToPackedIntBGRA = x ∧
    (RgbaColor.FromPackedInt x).Valid ∧ (RgbaColor.FromPackedIntBGRA x).Valid ∧
    (∀ c : RgbaColor, c.Valid → c.ToPackedInt < 2 ^ 32 ∧ c.ToPackedIntBGRA < 2 ^ 32) ∧
    (∀ c d : RgbaColor, c.Valid → d.Valid → c.ToPackedInt = d.ToPackedInt → c = d) ∧
    (∀ c d : RgbaColor, c.Valid → d.Valid → c.ToPackedIntBGRA = d.ToPackedIntBGRA → c = d) := by
  refine ⟨RgbaColor.ToPackedInt_FromPackedInt x hx,
    RgbaColor.ToPackedIntBGRA_FromPackedIntBGRA x hx,
    RgbaColor.FromPackedInt_valid x, RgbaColor.FromPackedIntBGRA_valid x,
    fun c hc => ⟨RgbaColor.ToPackedInt_lt c hc, RgbaColor.ToPackedIntBGRA_lt c hc⟩, ?_, ?_⟩
  · intro c d hc hd e
    rw [← RgbaColor.FromPackedInt_ToPackedInt c hc, e, RgbaColor.FromPackedInt_ToPackedInt d hd]
  · intro c d hc hd e
    rw [← RgbaColor.FromPackedIntBGRA_ToPackedIntBGRA c hc, e,
      RgbaColor.FromPackedIntBGRA_ToPackedIntBGRA d hd]

/-- C20 at the integer `0x12345678`. -/
theorem C20_RgbaColor_unpack_pack_roundtrip_witness :
    (0x12345678 : Nat) < 2 ^ 32 ∧
    (RgbaColor.FromPackedInt 0x12345678).ToPackedInt = 0x12345678 ∧
    (RgbaColor.FromPackedIntBGRA 0x12345678).ToPackedIntBGRA = 0x12345678 :=
  ⟨by decide, (C20_RgbaColor_unpack_pack_roundtrip 0x12345678 (by decide)).1,
    (C20_RgbaColor_unpack_pack_roundtrip 0x12345678 (by decide)).2.1⟩

end Dsc
